import Mathlib

/-!
Shallow embedding of the route-planning and travel-simulation core of the
Grafos_Burrito repository (src/models/star.py, src/models/graph.py,
src/models/burro.py, src/screens/constellation_view.py), together with
theorems checking the specification's claims against it.

Python floats are modelled as exact rationals (ℚ), Python ints as ℤ/ℕ,
Python dicts as insertion-ordered association lists with first-match lookup
and in-place overwrite, and Python sets of tuples as finite sets.
-/

namespace GB

/-- Association-list lookup: the semantics of `d.get(k)` on a Python dict
represented as an insertion-ordered list of key-value pairs. -/
def slookup {κ α : Type} [BEq κ] (l : List (κ × α)) (k : κ) : Option α :=
  match l.find? (fun p => p.1 == k) with
  | some p => some p.2
  | none => none

/-- Association-list update: the semantics of `d[k] = v` on a Python dict
(overwrites in place if the key is present, appends otherwise). -/
def sset {κ α : Type} [BEq κ] : List (κ × α) → κ → α → List (κ × α)
  | [], k, v => [(k, v)]
  | p :: t, k, v => if p.1 == k then (k, v) :: t else p :: sset t k v

/-- Python `min(a, b)`: `a` when `a <= b`, else `b`. -/
def pymin {α : Type} [LE α] [DecidableRel fun (a b : α) => a ≤ b] (a b : α) : α :=
  if a ≤ b then a else b

/-- Python `max(a, b)`: `a` when `a >= b`, else `b`. -/
def pymax {α : Type} [LE α] [DecidableRel fun (a b : α) => a ≤ b] (a b : α) : α :=
  if b ≤ a then a else b

/-- Python `int(x)` on a float: truncation toward zero, on ℚ. -/
def truncQ (q : ℚ) : ℤ :=
  q.num.tdiv q.den

/-- models/star.py: class Star. `connections` is the dict neighbor-id ↦ edge
weight. Coordinates and radius are only used by the (out of scope) rendering
code but are kept for fidelity. -/
structure Star where
  id : ℕ
  label : String
  coordinates : ℚ × ℚ
  radius : ℚ
  timeToEat : ℚ
  timeToResearch : ℚ
  energy : ℚ
  hypergiant : Bool
  connections : List (ℕ × ℚ)
deriving DecidableEq

/-- models/graph.py: class Graph (one constellation). `vertices` is the dict
star-id ↦ Star; `externalLinks` the list of (from_id, to_id, distance). -/
structure Graph where
  name : String
  vertices : List (ℕ × Star)
  externalLinks : List (ℕ × ℕ × ℚ)
deriving DecidableEq

/-- models/graph.py: `get_star` (dict .get, returning None when absent). -/
def Graph.getStar (g : Graph) (id : ℕ) : Option Star :=
  slookup g.vertices id

/-- models/graph.py: `get_all_stars` (list of the dict's values, in insertion
order). -/
def Graph.getAllStars (g : Graph) : List Star :=
  g.vertices.map (·.2)

/-- Well-formedness facts guaranteed by the Python dict representation:
vertex keys are distinct and each star's connection keys are distinct. -/
def GraphWF (g : Graph) : Prop :=
  (g.vertices.map (·.1)).Nodup ∧ ∀ p ∈ g.vertices, (p.2.connections.map (·.1)).Nodup

/-- Nonnegativity of all stored edge weights (weights are authored as
distances in the source data). -/
def NonnegWeights (g : Graph) : Prop :=
  ∀ p ∈ g.vertices, ∀ q ∈ p.2.connections, 0 ≤ q.2

/-- constellation_view.py `_edge_blocked` (lines 600-602): membership of the
canonically ordered key in the blocked-edges set. -/
def edgeBlocked (bl : Finset (ℕ × ℕ × ℕ)) (gi a b : ℕ) : Bool :=
  let xy := if a < b then (a, b) else (b, a)
  decide ((gi, xy.1, xy.2) ∈ bl)

/-- constellation_view.py `_toggle_edge_at_point` (lines 978-984), the
registry mutation applied once the clicked edge `(a, b)` has been found:
toggle the canonical key `(gi, min a b, max a b)` in the blocked set. -/
def toggleEdgeBlock (bl : Finset (ℕ × ℕ × ℕ)) (gi a b : ℕ) : Finset (ℕ × ℕ × ℕ) :=
  let key := (gi, min a b, max a b)
  if key ∈ bl then bl.erase key else insert key bl

/-- Weight of the directed step `a → b` as the path algorithms see it: `b`
must be a key of `a`'s connection dict and the canonical edge must not be
blocked; otherwise the step does not exist. -/
def edgeWeight (g : Graph) (bl : Finset (ℕ × ℕ × ℕ)) (gi a b : ℕ) : Option ℚ :=
  match g.getStar a with
  | none => none
  | some s =>
    match slookup s.connections b with
    | none => none
    | some w => if edgeBlocked bl gi a b then none else some w

/-- Total weight of a node sequence, defined when every consecutive step is a
present, non-blocked edge. A single node has weight 0; the empty sequence is
not a walk. -/
def walkCost (g : Graph) (bl : Finset (ℕ × ℕ × ℕ)) (gi : ℕ) : List ℕ → Option ℚ
  | [] => none
  | [_] => some 0
  | a :: b :: t =>
    match edgeWeight g bl gi a b, walkCost g bl gi (b :: t) with
    | some w, some c => some (w + c)
    | _, _ => none

/-- A walk from `s` to `t` of total weight `c` over the non-blocked edges. -/
def IsWalk (g : Graph) (bl : Finset (ℕ × ℕ × ℕ)) (gi s t : ℕ) (l : List ℕ) (c : ℚ) : Prop :=
  l.head? = some s ∧ l.getLast? = some t ∧ walkCost g bl gi l = some c

/-- A simple (no repeated node) non-blocked path from `s` to `t` whose total
weight is within the budget `budget`. -/
def SimplePathOk (g : Graph) (bl : Finset (ℕ × ℕ × ℕ)) (gi s t : ℕ) (budget : ℚ)
    (l : List ℕ) : Prop :=
  l.head? = some s ∧ l.getLast? = some t ∧ l.Nodup ∧
    ∃ c, walkCost g bl gi l = some c ∧ c ≤ budget

/-- State of the `_dijkstra_path` loop: the `dist` and `prev` dicts and the
priority queue. The queue is modelled as the list of its entries; popping
removes the lexicographically least `(distance, node)` pair, which is the
observable behaviour of Python's heapq on such tuples. -/
structure DijkstraState where
  dist : List (ℕ × ℚ)
  prev : List (ℕ × Option ℕ)
  pq : List (ℚ × ℕ)
deriving DecidableEq

/-- `heapq.heappop`: remove and return the least `(distance, node)` entry
(tuples compare lexicographically). Returns `none` on the empty queue. -/
def popMin : List (ℚ × ℕ) → Option ((ℚ × ℕ) × List (ℚ × ℕ))
  | [] => none
  | x :: xs =>
    match popMin xs with
    | none => some (x, [])
    | some (m, rest) =>
      if x.1 < m.1 ∨ (x.1 = m.1 ∧ x.2 ≤ m.2) then some (x, xs) else some (m, x :: rest)

/-- One relaxation of the connection entry `(v, w)` out of `u`, popped at key
`d` (constellation_view.py lines 619-627): skip blocked edges; when `d + w`
improves `dist.get(v, inf)`, set `dist[v]`, `prev[v]` and push `(d + w, v)`. -/
def relaxStep (bl : Finset (ℕ × ℕ × ℕ)) (gi u : ℕ) (d : ℚ) (st : DijkstraState)
    (vw : ℕ × ℚ) : DijkstraState :=
  let ab := if u < vw.1 then (u, vw.1) else (vw.1, u)
  if edgeBlocked bl gi ab.1 ab.2 then st
  else
    let nd := d + vw.2
    let improve : Bool :=
      match slookup st.dist vw.1 with
      | some dv => decide (nd < dv)
      | none => true
    if improve then
      { dist := sset st.dist vw.1 nd, prev := sset st.prev vw.1 (some u),
        pq := st.pq ++ [(nd, vw.1)] }
    else st

/-- The `while pq` loop of `_dijkstra_path` (lines 610-627), driven by an
explicit fuel (the source loop terminates; the fuel provided by
`dijkstraPath` is proved sufficient to reach the loop's own exit). Order of
the exits follows the source: break on popping the target, skip stale
entries, skip nodes without a star, otherwise relax every connection. -/
def dijkstraLoop (g : Graph) (bl : Finset (ℕ × ℕ × ℕ)) (gi targetId : ℕ) :
    ℕ → DijkstraState → DijkstraState
  | 0, st => st
  | fuel + 1, st =>
    match popMin st.pq with
    | none => st
    | some ((d, u), pq1) =>
      if u = targetId then { st with pq := pq1 }
      else
        let skip : Bool :=
          match slookup st.dist u with
          | some du => decide (du < d)
          | none => false
        if skip then dijkstraLoop g bl gi targetId fuel { st with pq := pq1 }
        else
          match g.getStar u with
          | none => dijkstraLoop g bl gi targetId fuel { st with pq := pq1 }
          | some us =>
            dijkstraLoop g bl gi targetId fuel
              (us.connections.foldl (relaxStep bl gi u d) { st with pq := pq1 })

/-- The path reconstruction loop of `_dijkstra_path` (lines 631-637):
`while prev.get(cur) is not None: cur = prev[cur]; path.append(cur)`,
with fuel (the predecessor chain is proved to reach the start within
`prev.length` steps). -/
def reconstruct (prev : List (ℕ × Option ℕ)) : ℕ → ℕ → List ℕ → List ℕ
  | 0, _, acc => acc
  | fuel + 1, cur, acc =>
    match slookup prev cur with
    | some (some p) => reconstruct prev fuel p (acc ++ [p])
    | _ => acc

/-- Fuel bound for the Dijkstra loop: one iteration per initial queue entry
plus, for every vertex, one settling pop and at most one push per
connection (proved sufficient below). -/
def dijkstraFuel (g : Graph) : ℕ :=
  2 + (g.vertices.map (fun p => 1 + p.2.connections.length)).sum

/-- The set of vertex ids of a graph (proof infrastructure). -/
def vertexIds (g : Graph) : Finset ℕ :=
  (g.vertices.map (·.1)).toFinset

/-- Degree of a node as seen by the algorithms (proof infrastructure). -/
def starDeg (g : Graph) (u : ℕ) : ℕ :=
  match g.getStar u with
  | some s => s.connections.length
  | none => 0

/-- Termination measure of the Dijkstra loop: queue length plus, for every
vertex not yet settled (`S` is the settled set), one pop and its pushes. -/
def dijkstraMeasure (g : Graph) (S : Finset ℕ) (st : DijkstraState) : ℕ :=
  st.pq.length + ((vertexIds g \ S).sum fun u => 1 + starDeg g u)

/-- constellation_view.py `_dijkstra_path` (lines 604-638): run the loop from
`dist = {start: 0}`, `prev = {start: None}`, `pq = [(0, start)]`; return `[]`
when the target never entered `prev` (and differs from the start), else the
reversed predecessor chain from the target. -/
def dijkstraPath (g : Graph) (bl : Finset (ℕ × ℕ × ℕ)) (gi startId targetId : ℕ) :
    List ℕ :=
  let st0 : DijkstraState :=
    { dist := [(startId, 0)], prev := [(startId, none)], pq := [(0, startId)] }
  let st := dijkstraLoop g bl gi targetId (dijkstraFuel g) st0
  if slookup st.prev targetId = none ∧ targetId ≠ startId then []
  else (reconstruct st.prev st.prev.length targetId [targetId]).reverse

/-- Reachability at a given cost: some walk from `s` to `u` over non-blocked
edges has total weight `c`. -/
def Reach (g : Graph) (bl : Finset (ℕ × ℕ × ℕ)) (gi s u : ℕ) (c : ℚ) : Prop :=
  ∃ l, IsWalk g bl gi s u l c

/-- Proof infrastructure: the core invariant of the Dijkstra loop state for
a settled set `S`: the start is pinned at distance 0; `dist` and `prev` have
the same domain; every tentative distance and every queue key is realized by
an actual walk; queue keys dominate the current tentative distances; settled
nodes have optimal distances and fully relaxed out-edges; the predecessor
links carry non-blocked edges consistent with the distances, and are
acyclic, witnessed by a rank function. -/
structure DCore (g : Graph) (bl : Finset (ℕ × ℕ × ℕ)) (gi s t : ℕ) (S : Finset ℕ)
    (st : DijkstraState) : Prop where
  startDist : slookup st.dist s = some 0
  startPrev : slookup st.prev s = some none
  domIff : ∀ u, (slookup st.dist u).isSome ↔ (slookup st.prev u).isSome
  distReach : ∀ u d, slookup st.dist u = some d → Reach g bl gi s u d
  pqReach : ∀ kd ∈ st.pq, Reach g bl gi s kd.2 kd.1
  pqKeyGe : ∀ kd ∈ st.pq, ∃ du, slookup st.dist kd.2 = some du ∧ du ≤ kd.1
  settled : ∀ u ∈ S, ∃ du, slookup st.dist u = some du ∧
    (∀ l c, IsWalk g bl gi s u l c → du ≤ c) ∧
    (∀ v w, edgeWeight g bl gi u v = some w →
      ∃ dv, slookup st.dist v = some dv ∧ dv ≤ du + w)
  settledGraph : ∀ u ∈ S, (g.getStar u).isSome
  chain : ∃ rank : ℕ → ℕ, ∀ v pv, slookup st.prev v = some pv → v ≠ s →
    ∃ u w, pv = some u ∧ edgeWeight g bl gi u v = some w ∧
      ∃ du dv, slookup st.dist u = some du ∧ slookup st.dist v = some dv ∧
        du + w ≤ dv ∧ (du < dv ∨ rank u < rank v)

/-- Proof infrastructure: the full invariant adds the frontier property:
every unsettled node with a tentative distance still has its current entry
in the queue (required only for graph nodes and for the target). -/
structure DFull (g : Graph) (bl : Finset (ℕ × ℕ × ℕ)) (gi s t : ℕ) (S : Finset ℕ)
    (st : DijkstraState) extends DCore g bl gi s t S st : Prop where
  frontier : ∀ u d, slookup st.dist u = some d → u ∉ S →
    ((g.getStar u).isSome ∨ u = t) → (d, u) ∈ st.pq

/-- Proof infrastructure: invariant threaded through the relaxation fold
while node `u`, popped at its final key `d`, is being settled. -/
structure RInv (g : Graph) (bl : Finset (ℕ × ℕ × ℕ)) (gi s t : ℕ) (S : Finset ℕ)
    (u : ℕ) (d : ℚ) (st : DijkstraState) extends DCore g bl gi s t S st : Prop where
  frontierX : ∀ x dx, slookup st.dist x = some dx → x ∉ S → x ≠ u →
    ((g.getStar x).isSome ∨ x = t) → (dx, x) ∈ st.pq
  uDist : slookup st.dist u = some d
  uOpt : ∀ l c, IsWalk g bl gi s u l c → d ≤ c
  uReach : Reach g bl gi s u d

/-- Proof infrastructure: the target's tentative distance is a lower bound
of every walk cost (hence optimal once realized). -/
def TOpt (g : Graph) (bl : Finset (ℕ × ℕ × ℕ)) (gi s t : ℕ) (st : DijkstraState) : Prop :=
  ∃ dt, slookup st.dist t = some dt ∧ ∀ l c, IsWalk g bl gi s t l c → dt ≤ c

/-- Proof infrastructure: lexicographic comparison of `(tentative distance,
rank)` used as the termination measure of the reconstruction loop. -/
def recKeyLt (st : DijkstraState) (rank : ℕ → ℕ) (x v : ℕ) : Bool :=
  match slookup st.dist x, slookup st.dist v with
  | some dx, some dv => decide (dx < dv ∨ (dx = dv ∧ rank x < rank v))
  | _, _ => false

/-- Proof infrastructure: number of `prev` keys strictly below `v` in the
`recKeyLt` order; strictly decreases along the predecessor chain. -/
def recMu (st : DijkstraState) (rank : ℕ → ℕ) (v : ℕ) : ℕ :=
  ((st.prev.map (·.1)).toFinset.filter (fun x => recKeyLt st rank x v = true)).card

/-- `vecs.sort(key=lambda t: t[1])`: Python's stable ascending sort by edge
weight, modelled as stable insertion sort (equal keys keep their order). -/
def insertByW (x : ℕ × ℚ) : List (ℕ × ℚ) → List (ℕ × ℚ)
  | [] => [x]
  | y :: ys => if y.2 ≤ x.2 then y :: insertByW x ys else x :: y :: ys

def sortByW : List (ℕ × ℚ) → List (ℕ × ℚ)
  | [] => []
  | x :: xs => insertByW x (sortByW xs)

/-- `bin(mask).count('1')`: number of set bits. -/
def popCount (x : ℕ) : ℕ := (Nat.digits 2 x).count 1

/-- The mutable search state of the two max-stars DFS routines: the best
route found so far with its count and total distance (`float('inf')` is
`none`), and the v2 memo dict. -/
structure MSState where
  bestPath : List ℕ
  bestCount : ℤ
  bestDist : Option ℚ
  memo : List ((ℕ × ℕ × ℤ) × ℤ)
deriving DecidableEq

/-- `dist_acc < best_dist` where `best_dist` may be `float('inf')`. -/
def distLt (d : ℚ) : Option ℚ → Bool
  | none => true
  | some b => decide (d < b)

/-- `{sid: i for i, sid in enumerate(id_list)}`: build the id-to-index dict
in order, later bindings overwriting earlier ones. -/
def buildIdxAux : List ℕ → ℕ → List (ℕ × ℕ) → List (ℕ × ℕ)
  | [], _, acc => acc
  | sid :: rest, i, acc => buildIdxAux rest (i + 1) (sset acc sid i)

def buildIdx (ids : List ℕ) : List (ℕ × ℕ) := buildIdxAux ids 0 []

/-- `adj.get(node, [])`. -/
def getAdj (adj : List (ℕ × List (ℕ × ℚ))) (a : ℕ) : List (ℕ × ℚ) :=
  (slookup adj a).getD []

/-- Adjacency dict of `_max_stars_path` (lines 662-670): per star, its
connection entries with blocked edges filtered out (the source canonicalizes
the pair before the `_edge_blocked` call, which canonicalizes again; the
composition equals `edgeBlocked` applied directly). -/
def buildAdjV1 (g : Graph) (bl : Finset (ℕ × ℕ × ℕ)) (gi : ℕ) :
    List (ℕ × List (ℕ × ℚ)) :=
  g.getAllStars.foldl
    (fun acc s => sset acc s.id
      (s.connections.filter (fun vw => ! edgeBlocked bl gi s.id vw.1))) []

/-- Adjacency dict of `_max_stars_path_v2` (lines 733-743): as in v1 but
each neighbour list is sorted by ascending weight. -/
def buildAdjV2 (g : Graph) (bl : Finset (ℕ × ℕ × ℕ)) (gi : ℕ) :
    List (ℕ × List (ℕ × ℚ)) :=
  g.getAllStars.foldl
    (fun acc s => sset acc s.id
      (sortByW (s.connections.filter (fun vw => ! edgeBlocked bl gi s.id vw.1)))) []

/-- The `dfs` closure of `_max_stars_path` (lines 673-704), fuel-driven (the
wall-clock cutoff is not modelled; each recursive call sets a fresh mask bit,
so fuel `n + 1` reaches the search's own exhaustion). The candidate count is
the popcount of the visited mask; neighbour skips are: unknown index, already
visited, over budget. -/
def v1Dfs (n : ℕ) (tId : ℕ) (adj : List (ℕ × List (ℕ × ℚ)))
    (idx : List (ℕ × ℕ)) :
    ℕ → ℕ → ℚ → ℕ → List ℕ → ℚ → MSState → MSState
  | 0, _, _, _, _, _, ms => ms
  | fuel + 1, node, remaining, mask, path, distAcc, ms =>
    if node = tId then
      if ((popCount mask : ℤ) > ms.bestCount ∨
          ((popCount mask : ℤ) = ms.bestCount ∧ distLt distAcc ms.bestDist)) then
        { ms with bestPath := path, bestCount := (popCount mask : ℤ),
                  bestDist := some distAcc }
      else ms
    else
      if ((popCount mask : ℤ) + ((n : ℤ) - (popCount mask : ℤ)) < ms.bestCount) then
        ms
      else
        (getAdj adj node).foldl
          (fun acc vw =>
            match slookup idx vw.1 with
            | none => acc
            | some i =>
              if mask &&& (1 <<< i) ≠ 0 then acc
              else if remaining < vw.2 then acc
              else
                v1Dfs n tId adj idx fuel vw.1 (remaining - vw.2)
                  (mask ||| (1 <<< i)) (path ++ [vw.1]) (distAcc + vw.2) acc)
          ms

/-- The `dfs` closure of `_max_stars_path_v2` (lines 751-787): count is the
path length; the memo key rounds the remaining budget to hundredths
(`int(remaining * 100)`), the stored value is the theoretical maximum
`len(path) + (n - len(path))`, and a repeated key with a value at least the
theoretical maximum prunes the branch; neighbour skips are: over budget,
unknown index, already visited. -/
def v2Dfs (n : ℕ) (tId : ℕ) (adj : List (ℕ × List (ℕ × ℚ)))
    (idx : List (ℕ × ℕ)) :
    ℕ → ℕ → ℚ → ℕ → List ℕ → ℚ → MSState → MSState
  | 0, _, _, _, _, _, ms => ms
  | fuel + 1, node, remaining, mask, path, distAcc, ms =>
    if node = tId then
      if ((path.length : ℤ) > ms.bestCount ∨
          ((path.length : ℤ) = ms.bestCount ∧ distLt distAcc ms.bestDist)) then
        { ms with bestPath := path, bestCount := (path.length : ℤ),
                  bestDist := some distAcc }
      else ms
    else
      if ((path.length : ℤ) + ((n : ℤ) - (path.length : ℤ)) < ms.bestCount) then
        ms
      else
        if (match slookup ms.memo (node, mask, truncQ (remaining * 100)) with
            | some prevBest =>
              decide ((path.length : ℤ) + ((n : ℤ) - (path.length : ℤ)) ≤ prevBest)
            | none => false) then ms
        else
          (getAdj adj node).foldl
            (fun acc vw =>
              if remaining < vw.2 then acc
              else
                match slookup idx vw.1 with
                | none => acc
                | some i =>
                  if mask &&& (1 <<< i) ≠ 0 then acc
                  else
                    v2Dfs n tId adj idx fuel vw.1 (remaining - vw.2)
                      (mask ||| (1 <<< i)) (path ++ [vw.1]) (distAcc + vw.2) acc)
            { ms with
              memo := sset ms.memo (node, mask, truncQ (remaining * 100))
                ((path.length : ℤ) + ((n : ℤ) - (path.length : ℤ))) }

/-- constellation_view.py `_max_stars_path` (lines 641-709), without the
wall-clock cutoff (which only truncates the search). `none` models the
uncaught `KeyError` of `id_to_idx[start_id]` when the start is absent. -/
def maxStarsPath (g : Graph) (bl : Finset (ℕ × ℕ × ℕ)) (gi startId targetId : ℕ)
    (lifeBudget : ℚ) : Option (List ℕ) :=
  if startId = targetId then some [startId]
  else
    let stars := g.getAllStars
    let idx := buildIdx (stars.map (·.id))
    match slookup idx startId with
    | none => none
    | some i0 =>
      some (v1Dfs stars.length targetId (buildAdjV1 g bl gi) idx
        (stars.length + 1) startId lifeBudget (1 <<< i0) [startId] 0
        { bestPath := [], bestCount := -1, bestDist := none, memo := [] }).bestPath

/-- constellation_view.py `_max_stars_path_v2` (lines 712-792): s = t yields
`[start]`; an empty star list yields `[]`; more than 26 stars delegates to
`_max_stars_path`; otherwise run the memoized DFS and fall back to
`_dijkstra_path` when it found nothing. -/
def maxStarsPathV2 (g : Graph) (bl : Finset (ℕ × ℕ × ℕ)) (gi startId targetId : ℕ)
    (lifeBudget : ℚ) : Option (List ℕ) :=
  if startId = targetId then some [startId]
  else
    let stars := g.getAllStars
    if stars = [] then some []
    else if 26 < stars.length then maxStarsPath g bl gi startId targetId lifeBudget
    else
      let idx := buildIdx (stars.map (·.id))
      match slookup idx startId with
      | none => none
      | some i0 =>
        let ms := v2Dfs stars.length targetId (buildAdjV2 g bl gi) idx
          (stars.length + 1) startId lifeBudget (1 <<< i0) [startId] 0
          { bestPath := [], bestCount := -1, bestDist := none, memo := [] }
        if ms.bestPath = [] then some (dijkstraPath g bl gi startId targetId)
        else some ms.bestPath

/-- Well-formedness of the program's graphs: `add_star` stores each star
under its own id (`self.vertices[star.id] = star`), so the stored key always
equals the star's `id` field. -/
def IdsConsistent (g : Graph) : Prop := ∀ p ∈ g.vertices, p.2.id = p.1

/-- Proof infrastructure: the best route held in a search state, when
non-empty, is a simple non-blocked s-t path within the budget. -/
def MSOk (g : Graph) (bl : Finset (ℕ × ℕ × ℕ)) (gi s t : ℕ) (budget : ℚ)
    (ms : MSState) : Prop :=
  ms.bestPath ≠ [] → SimplePathOk g bl gi s t budget ms.bestPath

/-- models/burro.py: the traveler's resource state. `energia` is capped at
`energiaMax`; `pasto` (food stock, an int in the source) at `pastoMax`;
`tiempoVida` is the remaining life budget. Animation and naming fields are
out of scope. -/
structure Burro where
  energia : ℚ
  energiaMax : ℚ
  estadoSalud : String
  pasto : ℤ
  pastoMax : ℤ
  tiempoVida : ℚ
  consumoEnergia : ℚ
deriving DecidableEq

/-- Mission parameters (constellation_view.py lines 67-75). -/
structure MissionParams where
  maxEatFraction : ℚ
  kgPerSecondEat : ℚ
  energyPerKgPct : List (String × ℚ)
  researchEnergyPerSecond : ℚ
  travelSpeedUnits : ℚ
  routeObjective : String
deriving DecidableEq

/-- constellation_view.py `_compute_route` (lines 794-810): dispatch on the
mission's route objective (any value other than "min_cost" selects the
max-stars planner), with a Dijkstra fallback on an empty route. `none`
propagates the uncaught exception of the v2 planner. -/
def computeRoute (g : Graph) (bl : Finset (ℕ × ℕ × ℕ)) (gi startId targetId : ℕ)
    (mp : MissionParams) (lifeBudget : ℚ) : Option (List ℕ) :=
  if mp.routeObjective = "min_cost" then
    some (dijkstraPath g bl gi startId targetId)
  else
    match maxStarsPathV2 g bl gi startId targetId lifeBudget with
    | none => none
    | some p =>
      if p = [] then some (dijkstraPath g bl gi startId targetId) else some p

/-- Lookup of the energy-per-kg percentage for a health status
(constellation_view.py lines 877-878): `pct_map.get(salud,
pct_map.get("Excelente", 5))`. -/
def pctFor (mp : MissionParams) (salud : String) : ℚ :=
  match slookup mp.energyPerKgPct salud with
  | some v => v
  | none =>
    match slookup mp.energyPerKgPct "Excelente" with
    | some v => v
    | none => 5

/-- constellation_view.py `_process_arrival`, hypergiant block (lines
863-871): +50% energy capped at the max; double the food stock clamped to
`max(pasto_max, pasto*2)`; raise the max to cover the new stock. `int()` on
the already integral `new_pasto` is the identity. -/
def hypergiantBonus (b : Burro) : Burro :=
  let add := (1 / 2 : ℚ) * b.energia
  let energia1 := pymin b.energiaMax (b.energia + add)
  let newPasto : ℤ := b.pasto * 2
  let cap : ℤ := pymax b.pastoMax (b.pasto * 2)
  let pasto1 := pymin cap newPasto
  let pastoMax1 := pymax b.pastoMax pasto1
  { b with energia := energia1, pasto := pasto1, pastoMax := pastoMax1 }

/-- constellation_view.py `_process_arrival`, stay block (lines 872-890):
eating then research. The stock decreases by `int(kg_eaten)` (the source
truncates the float before subtracting from the int stock). -/
def stayStep (star : Star) (mp : MissionParams) (b : Burro) : Burro :=
  let maxEatFrac := mp.maxEatFraction
  let kgPerS := mp.kgPerSecondEat
  let researchRate := mp.researchEnergyPerSecond
  let pct := pctFor mp b.estadoSalud
  let eatTime := pymax 0 (star.timeToEat * maxEatFrac)
  let researchTime := pymax 0 (star.timeToResearch - eatTime)
  let maxKg := kgPerS * eatTime
  let kgEaten : ℚ := pymin (b.pasto : ℚ) maxKg
  let pasto1 := b.pasto - truncQ kgEaten
  let energiaGain := (pct / 100) * b.energiaMax * kgEaten
  let energia1 := pymin b.energiaMax (b.energia + energiaGain)
  let energiaLost := researchRate * researchTime
  let energia2 := pymax 0 (energia1 - energiaLost)
  { b with pasto := pasto1, energia := energia2 }

/-- constellation_view.py `_process_arrival` (lines 855-907): no-op when the
star is absent; otherwise the hypergiant bonus (if any) followed by the stay
(eat/research) step. The visited-set insertion, the travel-log append and
the death animation have no effect on the resource state and are out of
scope here. -/
def processArrival (g : Graph) (mp : MissionParams) (starId : ℕ) (b : Burro) : Burro :=
  match g.getStar starId with
  | none => b
  | some star => stayStep star mp (if star.hypergiant then hypergiantBonus b else b)

/-- burro.py `moverse_a_estrella` resource effect (line 122): energy is
reduced by `consumo_energia`, clamped at 0. -/
def moverseAEstrella (b : Burro) : Burro :=
  { b with energia := pymax 0 (b.energia - b.consumoEnergia) }

/-- constellation_view.py `update` transit-completion effect on the life
budget (line 237): `tiempo_vida = max(0, tiempo_vida - dist)`. -/
def lifeTick (dist : ℚ) (b : Burro) : Burro :=
  { b with tiempoVida := pymax 0 (b.tiempoVida - dist) }

/-- One resource-affecting simulator operation: arrival processing at a star,
a move (the `moverse_a_estrella` energy cost), or a transit-completion life
decrement of a traversed distance. -/
inductive SimOp : Type
  | arrival (starId : ℕ)
  | move
  | tick (dist : ℚ)
deriving DecidableEq

/-- Action of one simulator operation on the traveler state. -/
def applyOp (g : Graph) (mp : MissionParams) (b : Burro) : SimOp → Burro
  | SimOp.arrival starId => processArrival g mp starId b
  | SimOp.move => moverseAEstrella b
  | SimOp.tick d => lifeTick d b

/-- Resource bounds the spec asserts as invariants. -/
def BurroInv (b : Burro) : Prop :=
  0 ≤ b.energia ∧ b.energia ≤ b.energiaMax ∧
    0 ≤ b.pasto ∧ b.pasto ≤ b.pastoMax ∧ 0 ≤ b.tiempoVida

/-- Nonnegativity of the mission parameters and of the per-kg percentages,
as authored in the configuration. -/
def ParamsOK (mp : MissionParams) : Prop :=
  0 ≤ mp.kgPerSecondEat ∧ 0 ≤ mp.researchEnergyPerSecond ∧
    ∀ p ∈ mp.energyPerKgPct, 0 ≤ p.2

/-- The travel-progress fields of the view that `_advance_to_next_edge`
reads and writes. -/
structure TravelState where
  plannedPath : List ℕ
  currentStarId : Option ℕ
  currentTravel : Option (ℕ × ℕ)
  currentTravelTime : ℚ
  currentTravelDuration : ℚ
deriving DecidableEq

/-- constellation_view.py `_advance_to_next_edge` (lines 843-846) lower half:
start the transit `(a, b)` with duration `max(0.2, dist / speed)` where
`dist = get_star(a).connections.get(b, 0.0)` and
`speed = max(1e-3, travelSpeedUnits)`. If star `a` is absent the source
raises AttributeError; that crash is modelled as `none`. -/
def startTravel (g : Graph) (mp : MissionParams) (ts : TravelState) (a b : ℕ) :
    Option TravelState :=
  match g.getStar a with
  | none => none
  | some st =>
    let speed := pymax (1 / 1000 : ℚ) mp.travelSpeedUnits
    let dist := match slookup st.connections b with
      | some w => w
      | none => 0
    some { ts with currentTravel := some (a, b),
                   currentTravelDuration := pymax (1 / 5) (dist / speed),
                   currentTravelTime := 0 }

/-- constellation_view.py `_advance_to_next_edge` (lines 819-847): locate the
current star in the planned route (first occurrence, `-1` when absent as in
the `except ValueError` branch) and start the transit along the following
edge; clear the transit when the route is exhausted. The blocked-edge
registry is not consulted anywhere in the source of this method. -/
def advanceToNextEdge (g : Graph) (mp : MissionParams) (ts : TravelState) :
    Option TravelState :=
  match ts.currentStarId with
  | none => some { ts with currentTravel := none }
  | some cur =>
    match ts.plannedPath with
    | [] => some { ts with currentTravel := none }
    | p0 :: rest =>
      let path := p0 :: rest
      let idx0 : ℤ := if cur ∈ path then (path.indexOf cur : ℤ) else -1
      let idx : ℤ := if idx0 = -1 ∧ p0 = cur then 0 else idx0
      if idx < 0 then
        match rest with
        | b :: _ => startTravel g mp ts p0 b
        | [] => some { ts with currentTravel := none }
      else
        if (path.length : ℤ) ≤ idx + 1 then some { ts with currentTravel := none }
        else startTravel g mp ts (path.getD idx.toNat 0) (path.getD (idx.toNat + 1) 0)

/-! Concrete fixtures used by counterexamples and witnesses -/

/-- Fixture builder: a star whose rendering-only fields are defaulted. -/
def mkStar (id : ℕ) (tte ttr : ℚ) (hyper : Bool) (conns : List (ℕ × ℚ)) : Star :=
  { id := id, label := "", coordinates := (0, 0), radius := 1, timeToEat := tte,
    timeToResearch := ttr, energy := 0, hypergiant := hyper, connections := conns }

/-- The default mission parameters (constellation_view.py lines 67-75). -/
def mpDefault : MissionParams :=
  { maxEatFraction := 1 / 2, kgPerSecondEat := 5,
    energyPerKgPct := [("Excelente", 5), ("Regular", 3), ("Malo", 2)],
    researchEnergyPerSecond := 2, travelSpeedUnits := 100,
    routeObjective := "max_stars" }

/-- A single hypergiant star, for the hypergiant-arrival scenario. -/
def starHyper : Star := mkStar 1 0 0 true []

def gHyper : Graph := { name := "H", vertices := [(1, starHyper)], externalLinks := [] }

/-- Traveler with energy 10 of max 100 (spec scenario for C4). -/
def bTen : Burro :=
  { energia := 10, energiaMax := 100, estadoSalud := "Excelente", pasto := 5,
    pastoMax := 300, tiempoVida := 50, consumoEnergia := 1 }

/-- A star at which eat_time is 0.5s, so kg_eaten = 2.5 with the default
parameters. -/
def starEat : Star := mkStar 1 1 0 false []

def gEat : Graph := { name := "E", vertices := [(1, starEat)], externalLinks := [] }

/-- Traveler with a food stock of 10 kg. -/
def bEat : Burro :=
  { energia := 50, energiaMax := 100, estadoSalud := "Excelente", pasto := 10,
    pastoMax := 300, tiempoVida := 100, consumoEnergia := 1 }

/-- Two stars joined by an edge of weight 5. -/
def gAdv : Graph :=
  { name := "A", vertices := [(1, mkStar 1 1 1 false [(2, 5)]), (2, mkStar 2 1 1 false [(1, 5)])],
    externalLinks := [] }

/-- Registry in which the edge (1,2) of constellation 0 is blocked. -/
def blAdv : Finset (ℕ × ℕ × ℕ) := {(0, 1, 2)}

/-- Travel state: route [1, 2] planned, traveler at star 1, no transit. -/
def tsAdv : TravelState :=
  { plannedPath := [1, 2], currentStarId := some 1, currentTravel := none,
    currentTravelTime := 0, currentTravelDuration := 0 }

/-- Travel state: route [1, 2] planned while the traveler sits at star 7,
which does not occur in the route. -/
def tsOff : TravelState :=
  { plannedPath := [1, 2], currentStarId := some 7, currentTravel := none,
    currentTravelTime := 0, currentTravelDuration := 0 }

/-- Travel state whose route [1, 2, 1] ends at the traveler's current star 1
but also starts there. -/
def tsLoop : TravelState :=
  { plannedPath := [1, 2, 1], currentStarId := some 1, currentTravel := none,
    currentTravelTime := 0, currentTravelDuration := 0 }

/-- Triangle fixture for the path planners: 1-2 (weight 5), 2-3 (weight 5),
1-3 (weight 20). The cheapest 1-to-3 route is [1, 2, 3] at cost 10. -/
def gC1 : Graph :=
  { name := "C1",
    vertices :=
      [(1, mkStar 1 0 0 false [(2, 5), (3, 20)]),
       (2, mkStar 2 0 0 false [(1, 5), (3, 5)]),
       (3, mkStar 3 0 0 false [(2, 5), (1, 20)])],
    externalLinks := [] }

/-- The spec's 3-node scenario for the max-stars planner: a line
A(1)-B(2)-C(3) with weights 5 and 5. -/
def gC2 : Graph :=
  { name := "C2",
    vertices :=
      [(1, mkStar 1 2 4 false [(2, 5)]),
       (2, mkStar 2 2 4 false [(1, 5), (3, 5)]),
       (3, mkStar 3 2 4 false [(2, 5)])],
    externalLinks := [] }

/-- Triangle 1-2 (5), 2-3 (5), 1-3 (8): with budget 12 the max-stars planner
prefers [1, 2, 3] while Dijkstra prefers [1, 3]. -/
def gC2w : Graph :=
  { name := "C2w",
    vertices :=
      [(1, mkStar 1 0 0 false [(2, 5), (3, 8)]),
       (2, mkStar 2 0 0 false [(1, 5), (3, 5)]),
       (3, mkStar 3 0 0 false [(2, 5), (1, 8)])],
    externalLinks := [] }

/-- Five-node graph on which the v2 memo rounding loses the optimum: two
search prefixes reach node 3 with the same visited set and remaining budgets
that agree after rounding to hundredths, so the second (feasible) branch is
pruned. -/
def gC2x : Graph :=
  { name := "C2x",
    vertices :=
      [(1, mkStar 1 0 0 false [(5, 9/10), (2, 1), (3, 501/500)]),
       (2, mkStar 2 0 0 false [(1, 1), (3, 1), (4, 1001/1000)]),
       (3, mkStar 3 0 0 false [(2, 1), (1, 501/500), (4, 126/125)]),
       (4, mkStar 4 0 0 false [(2, 1001/1000), (5, 201/200), (3, 126/125)]),
       (5, mkStar 5 0 0 false [(1, 9/10), (4, 201/200)])],
    externalLinks := [] }

/-! Theorems -/

theorem slookup_eq_some_mem {κ α : Type} [BEq κ] [LawfulBEq κ]
    {l : List (κ × α)} {k : κ} {v : α} (h : slookup l k = some v) : (k, v) ∈ l := by
  induction l with
  | nil => simp [slookup] at h
  | cons p t ih =>
    unfold slookup at h
    rw [List.find?_cons] at h
    cases hbk : (p.1 == k) with
    | false =>
      rw [hbk] at h
      exact List.mem_cons_of_mem _ (ih (by simpa [slookup] using h))
    | true =>
      rw [hbk] at h
      have hk2 : p.1 = k := by simpa using hbk
      have hv : p.2 = v := by simpa using h
      have hp : p = (k, v) := by
        cases p
        simp_all
      rw [hp]
      exact List.mem_cons_self _ _

theorem slookup_cons {κ α : Type} [BEq κ] (p : κ × α) (t : List (κ × α)) (k : κ) :
    slookup (p :: t) k = if p.1 == k then some p.2 else slookup t k := by
  unfold slookup
  rw [List.find?_cons]
  cases hbk : (p.1 == k) with
  | false => simp [hbk]
  | true => simp [hbk]

theorem slookup_of_mem_nodup {κ α : Type} [BEq κ] [LawfulBEq κ]
    {l : List (κ × α)} {k : κ} {v : α} (hnd : (l.map (·.1)).Nodup)
    (hm : (k, v) ∈ l) : slookup l k = some v := by
  induction l with
  | nil => simp at hm
  | cons p t ih =>
    rw [List.map_cons, List.nodup_cons] at hnd
    rw [slookup_cons]
    rcases List.mem_cons.mp hm with he | ht
    · rw [← he]
      simp
    · have hk : p.1 ≠ k := by
        intro hk
        exact hnd.1 (by
          rw [hk]
          exact List.mem_map.mpr ⟨(k, v), ht, rfl⟩)
      simp only [beq_eq_false_iff_ne.mpr hk]
      exact ih hnd.2 ht

theorem slookup_sset_self {κ α : Type} [BEq κ] [LawfulBEq κ]
    (l : List (κ × α)) (k : κ) (v : α) : slookup (sset l k v) k = some v := by
  induction l with
  | nil => simp [sset, slookup_cons]
  | cons p t ih =>
    unfold sset
    by_cases h : p.1 == k
    · simp [h, slookup_cons]
    · simp only [h, Bool.false_eq_true, if_false]
      rw [slookup_cons]
      simp only [h, Bool.false_eq_true, if_false]
      exact ih

theorem slookup_sset_ne {κ α : Type} [BEq κ] [LawfulBEq κ]
    (l : List (κ × α)) (k k' : κ) (v : α) (h : k' ≠ k) :
    slookup (sset l k v) k' = slookup l k' := by
  have hkk' : (k == k') = false := beq_eq_false_iff_ne.mpr fun hh => h hh.symm
  induction l with
  | nil =>
    show slookup [(k, v)] k' = slookup [] k'
    rw [slookup_cons]
    simp [hkk', slookup]
  | cons p t ih =>
    unfold sset
    by_cases hpk : (p.1 == k) = true
    · rw [if_pos hpk, slookup_cons, slookup_cons]
      have hp1 : p.1 = k := by simpa using hpk
      rw [hp1, hkk']
      simp
    · rw [if_neg hpk, slookup_cons, slookup_cons]
      by_cases hpk' : (p.1 == k') = true
      · rw [if_pos hpk', if_pos hpk']
      · rw [if_neg hpk', if_neg hpk']
        exact ih

theorem popMin_none {l : List (ℚ × ℕ)} (h : popMin l = none) : l = [] := by
  cases l with
  | nil => rfl
  | cons x xs =>
    unfold popMin at h
    cases hx : popMin xs with
    | none => simp [hx] at h
    | some p =>
      obtain ⟨pm, pr⟩ := p
      rw [hx] at h
      dsimp only at h
      by_cases hc : x.1 < pm.1 ∨ (x.1 = pm.1 ∧ x.2 ≤ pm.2) <;> simp [hc] at h

theorem popMin_perm {l : List (ℚ × ℕ)} {m : ℚ × ℕ} {rest : List (ℚ × ℕ)}
    (h : popMin l = some (m, rest)) : l.Perm (m :: rest) := by
  induction l generalizing m rest with
  | nil => simp [popMin] at h
  | cons x xs ih =>
    unfold popMin at h
    cases hx : popMin xs with
    | none =>
      rw [hx] at h
      have hxs : xs = [] := popMin_none hx
      simp only [Option.some.injEq, Prod.mk.injEq] at h
      rw [← h.1, ← h.2, hxs]
    | some p =>
      obtain ⟨pm, pr⟩ := p
      rw [hx] at h
      dsimp only at h
      by_cases hc : x.1 < pm.1 ∨ (x.1 = pm.1 ∧ x.2 ≤ pm.2)
      · rw [if_pos hc] at h
        simp only [Option.some.injEq, Prod.mk.injEq] at h
        rw [← h.1, ← h.2]
      · rw [if_neg hc] at h
        simp only [Option.some.injEq, Prod.mk.injEq] at h
        have hperm := @ih pm pr (by rw [hx])
        have hswap : (x :: pm :: pr).Perm (pm :: x :: pr) := List.Perm.swap pm x pr
        rw [← h.1, ← h.2]
        exact (hperm.cons x).trans hswap

theorem popMin_mem {l : List (ℚ × ℕ)} {m : ℚ × ℕ} {rest : List (ℚ × ℕ)}
    (h : popMin l = some (m, rest)) : m ∈ l :=
  (popMin_perm h).symm.mem_iff.mp (List.mem_cons_self _ _)

theorem popMin_le {l : List (ℚ × ℕ)} {m : ℚ × ℕ} {rest : List (ℚ × ℕ)}
    (h : popMin l = some (m, rest)) : ∀ x ∈ l, m.1 ≤ x.1 := by
  induction l generalizing m rest with
  | nil => simp [popMin] at h
  | cons x xs ih =>
    unfold popMin at h
    cases hx : popMin xs with
    | none =>
      rw [hx] at h
      have hxs : xs = [] := popMin_none hx
      simp only [Option.some.injEq, Prod.mk.injEq] at h
      intro y hy
      rw [hxs] at hy
      simp only [List.mem_singleton] at hy
      rw [hy, ← h.1]
    | some p =>
      obtain ⟨pm, pr⟩ := p
      rw [hx] at h
      dsimp only at h
      have hmin := @ih pm pr (by rw [hx])
      by_cases hc : x.1 < pm.1 ∨ (x.1 = pm.1 ∧ x.2 ≤ pm.2)
      · rw [if_pos hc] at h
        simp only [Option.some.injEq, Prod.mk.injEq] at h
        intro y hy
        rcases List.mem_cons.mp hy with he | ht
        · rw [he, ← h.1]
        · have hxp : x.1 ≤ pm.1 := by
            rcases hc with hlt | ⟨heq, _⟩
            · exact le_of_lt hlt
            · exact le_of_eq heq
          rw [← h.1]
          exact le_trans hxp (hmin y ht)
      · rw [if_neg hc] at h
        simp only [Option.some.injEq, Prod.mk.injEq] at h
        have hpx : pm.1 ≤ x.1 := not_lt.mp (fun hlt => hc (Or.inl hlt))
        intro y hy
        rcases List.mem_cons.mp hy with he | ht
        · rw [he, ← h.1]
          exact hpx
        · rw [← h.1]
          exact hmin y ht

theorem edgeBlocked_comm (bl : Finset (ℕ × ℕ × ℕ)) (gi a b : ℕ) :
    edgeBlocked bl gi a b = edgeBlocked bl gi b a := by
  unfold edgeBlocked
  rcases Nat.lt_trichotomy a b with h | h | h
  · simp [h, Nat.not_lt.mpr (Nat.le_of_lt h)]
  · simp [h]
  · simp [h, Nat.not_lt.mpr (Nat.le_of_lt h)]

theorem relax_blocked_eq (bl : Finset (ℕ × ℕ × ℕ)) (gi u v : ℕ) :
    edgeBlocked bl gi (if u < v then (u, v) else (v, u)).1
      (if u < v then (u, v) else (v, u)).2 = edgeBlocked bl gi u v := by
  by_cases h : u < v
  · simp [h]
  · simp [h, edgeBlocked_comm bl gi v u]

theorem edgeWeight_spec {g : Graph} {bl : Finset (ℕ × ℕ × ℕ)} {gi a b : ℕ} {w : ℚ}
    (h : edgeWeight g bl gi a b = some w) :
    ∃ s, g.getStar a = some s ∧ slookup s.connections b = some w ∧
      edgeBlocked bl gi a b = false := by
  unfold edgeWeight at h
  cases hs : g.getStar a with
  | none => simp [hs] at h
  | some s =>
    simp only [hs] at h
    cases hw : slookup s.connections b with
    | none => simp [hw] at h
    | some w2 =>
      simp only [hw] at h
      by_cases hb : edgeBlocked bl gi a b = true
      · simp [hb] at h
      · rw [if_neg hb] at h
        refine ⟨s, rfl, ?_, by simpa using hb⟩
        rw [hw]
        exact congrArg some (by injection h)

theorem edgeWeight_of_parts {g : Graph} {bl : Finset (ℕ × ℕ × ℕ)} {gi a b : ℕ} {w : ℚ}
    {s : Star} (hs : g.getStar a = some s) (hw : slookup s.connections b = some w)
    (hb : edgeBlocked bl gi a b = false) : edgeWeight g bl gi a b = some w := by
  simp [edgeWeight, hs, hw, hb]

theorem edgeWeight_nonneg {g : Graph} {bl : Finset (ℕ × ℕ × ℕ)} {gi a b : ℕ} {w : ℚ}
    (hNN : NonnegWeights g) (h : edgeWeight g bl gi a b = some w) : 0 ≤ w := by
  obtain ⟨s, hs, hw, _⟩ := edgeWeight_spec h
  exact hNN (a, s) (slookup_eq_some_mem hs) (b, w) (slookup_eq_some_mem hw)

theorem walkCost_cons_cons {g : Graph} {bl : Finset (ℕ × ℕ × ℕ)} {gi : ℕ}
    {a b : ℕ} {t : List ℕ} {c : ℚ} (h : walkCost g bl gi (a :: b :: t) = some c) :
    ∃ w c1, edgeWeight g bl gi a b = some w ∧ walkCost g bl gi (b :: t) = some c1 ∧
      c = w + c1 := by
  unfold walkCost at h
  cases hw : edgeWeight g bl gi a b with
  | none =>
    rw [hw] at h
    cases h
  | some w =>
    rw [hw] at h
    cases hc : walkCost g bl gi (b :: t) with
    | none =>
      rw [hc] at h
      cases h
    | some c1 =>
      rw [hc] at h
      exact ⟨w, c1, rfl, rfl, by injection h with h2; rw [← h2]⟩

theorem walkCost_cons_cons_intro {g : Graph} {bl : Finset (ℕ × ℕ × ℕ)} {gi : ℕ}
    {a b : ℕ} {t : List ℕ} {w c1 : ℚ} (hw : edgeWeight g bl gi a b = some w)
    (hc : walkCost g bl gi (b :: t) = some c1) :
    walkCost g bl gi (a :: b :: t) = some (w + c1) := by
  unfold walkCost
  rw [hw, hc]

theorem walkCost_nonneg {g : Graph} {bl : Finset (ℕ × ℕ × ℕ)} {gi : ℕ}
    (hNN : NonnegWeights g) :
    ∀ l c, walkCost g bl gi l = some c → 0 ≤ c := by
  intro l
  induction l with
  | nil =>
    intro c h
    cases h
  | cons a t ih =>
    intro c h
    cases t with
    | nil =>
      have : c = 0 := by
        unfold walkCost at h
        injection h with h2
        rw [← h2]
      rw [this]
    | cons b t2 =>
      obtain ⟨w, c1, hw, hc1, he⟩ := walkCost_cons_cons h
      have h1 := edgeWeight_nonneg hNN hw
      have h2 := ih c1 hc1
      rw [he]
      linarith

theorem walkCost_append_single {g : Graph} {bl : Finset (ℕ × ℕ × ℕ)} {gi : ℕ} :
    ∀ {l : List ℕ} {u v : ℕ} {c w : ℚ}, l.getLast? = some u →
      walkCost g bl gi l = some c → edgeWeight g bl gi u v = some w →
      walkCost g bl gi (l ++ [v]) = some (c + w) := by
  intro l
  induction l with
  | nil =>
    intro u v c w hl
    cases hl
  | cons a t ih =>
    intro u v c w hl hc hw
    cases t with
    | nil =>
      have hu : a = u := by
        simp at hl
        exact hl
      have hc0 : c = 0 := by
        unfold walkCost at hc
        injection hc with h2
        rw [← h2]
      rw [hu, hc0]
      have : walkCost g bl gi (u :: [v]) = some (w + 0) :=
        walkCost_cons_cons_intro hw rfl
      simpa [add_comm] using this
    | cons b t2 =>
      obtain ⟨w1, c1, hw1, hc1, he⟩ := walkCost_cons_cons hc
      have hl2 : (b :: t2).getLast? = some u := by
        rw [List.getLast?_cons_cons] at hl
        exact hl
      have hrec := ih hl2 hc1 hw
      have : walkCost g bl gi (a :: ((b :: t2) ++ [v])) = some (w1 + (c1 + w)) := by
        cases t2 with
        | nil => exact walkCost_cons_cons_intro hw1 hrec
        | cons x t3 => exact walkCost_cons_cons_intro hw1 hrec
      rw [he]
      simpa [add_assoc] using this

theorem isWalk_single (g : Graph) (bl : Finset (ℕ × ℕ × ℕ)) (gi s : ℕ) :
    IsWalk g bl gi s s [s] 0 :=
  ⟨rfl, rfl, rfl⟩

theorem isWalk_extend {g : Graph} {bl : Finset (ℕ × ℕ × ℕ)} {gi s u v : ℕ}
    {l : List ℕ} {c w : ℚ} (h : IsWalk g bl gi s u l c)
    (hw : edgeWeight g bl gi u v = some w) :
    IsWalk g bl gi s v (l ++ [v]) (c + w) := by
  obtain ⟨hh, hl, hc⟩ := h
  refine ⟨?_, ?_, walkCost_append_single hl hc hw⟩
  · cases l with
    | nil => cases hh
    | cons x t => simpa using hh
  · simp [List.getLast?_concat]

theorem reach_extend {g : Graph} {bl : Finset (ℕ × ℕ × ℕ)} {gi s u v : ℕ}
    {c w : ℚ} (h : Reach g bl gi s u c) (hw : edgeWeight g bl gi u v = some w) :
    Reach g bl gi s v (c + w) := by
  obtain ⟨l, hl⟩ := h
  exact ⟨l ++ [v], isWalk_extend hl hw⟩

theorem reach_nonneg {g : Graph} {bl : Finset (ℕ × ℕ × ℕ)} {gi s u : ℕ} {c : ℚ}
    (hNN : NonnegWeights g) (h : Reach g bl gi s u c) : 0 ≤ c := by
  obtain ⟨l, _, _, hc⟩ := h
  exact walkCost_nonneg hNN l c hc

theorem frontier_path {g : Graph} {bl : Finset (ℕ × ℕ × ℕ)} {gi s t : ℕ}
    {S : Finset ℕ} {st : DijkstraState} (inv : DFull g bl gi s t S st)
    (hNN : NonnegWeights g) :
    ∀ l x v c dx, l.head? = some x → l.getLast? = some v →
      walkCost g bl gi l = some c → x ∈ S → slookup st.dist x = some dx →
      v ∉ S → ((g.getStar v).isSome ∨ v = t) →
      ∃ kd ∈ st.pq, kd.1 ≤ dx + c := by
  intro l
  induction l with
  | nil =>
    intro x v c dx hh
    cases hh
  | cons a tl ih =>
    intro x v c dx hh hl hc hxS hdx hvS hvG
    have hax : a = x := by injection hh
    subst hax
    cases tl with
    | nil =>
      have hva : a = v := by simpa using hl
      rw [← hva] at hvS
      exact absurd hxS hvS
    | cons b tl2 =>
      obtain ⟨w, c1, hw, hc1, hce⟩ := walkCost_cons_cons hc
      obtain ⟨du, hdu, huopt, hclose⟩ := inv.settled a hxS
      have hdud : du = dx := by
        rw [hdu] at hdx
        injection hdx
      subst hdud
      obtain ⟨dv, hdv, hdvle⟩ := hclose b w hw
      have hc1nn : 0 ≤ c1 := walkCost_nonneg hNN _ _ hc1
      by_cases hbS : b ∈ S
      · have hl2 : (b :: tl2).getLast? = some v := by
          rw [List.getLast?_cons_cons] at hl
          exact hl
        obtain ⟨kd, hkd, hle⟩ := ih b v c1 dv rfl hl2 hc1 hbS hdv hvS hvG
        refine ⟨kd, hkd, ?_⟩
        rw [hce]
        linarith
      · have hbG : (g.getStar b).isSome ∨ b = t := by
          cases tl2 with
          | nil =>
            have hvb : b = v := by simpa using hl
            rw [hvb]
            exact hvG
          | cons bb tl3 =>
            obtain ⟨w2, c2, hw2, _, _⟩ := walkCost_cons_cons hc1
            obtain ⟨sb, hsb, _, _⟩ := edgeWeight_spec hw2
            left
            rw [hsb]
            rfl
        have hmem := inv.frontier b dv hdv hbS hbG
        refine ⟨(dv, b), hmem, ?_⟩
        rw [hce]
        simp only
        linarith

theorem dcover {g : Graph} {bl : Finset (ℕ × ℕ × ℕ)} {gi s t : ℕ}
    {S : Finset ℕ} {st : DijkstraState} (inv : DFull g bl gi s t S st)
    (hNN : NonnegWeights g) {l : List ℕ} {v : ℕ} {c : ℚ}
    (hwalk : IsWalk g bl gi s v l c) (hvS : v ∉ S)
    (hvG : (g.getStar v).isSome ∨ v = t) :
    ∃ kd ∈ st.pq, kd.1 ≤ c := by
  obtain ⟨hh, hl, hc⟩ := hwalk
  by_cases hsS : s ∈ S
  · obtain ⟨kd, hkd, hle⟩ := frontier_path inv hNN l s v c 0 hh hl hc hsS inv.startDist hvS hvG
    exact ⟨kd, hkd, by simpa using hle⟩
  · have hcnn : 0 ≤ c := walkCost_nonneg hNN _ _ hc
    cases l with
    | nil => cases hh
    | cons a tl =>
      have has : a = s := by injection hh
      subst has
      cases tl with
      | nil =>
        have hva : a = v := by simpa using hl
        subst hva
        have hmem := inv.frontier a 0 inv.startDist hvS hvG
        exact ⟨(0, a), hmem, hcnn⟩
      | cons b tl2 =>
        obtain ⟨w, c1, hw, _, _⟩ := walkCost_cons_cons hc
        obtain ⟨sa, hsa, _, _⟩ := edgeWeight_spec hw
        have hmem := inv.frontier a 0 inv.startDist hsS (Or.inl (by rw [hsa]; rfl))
        exact ⟨(0, a), hmem, hcnn⟩

theorem pop_settles {g : Graph} {bl : Finset (ℕ × ℕ × ℕ)} {gi s t : ℕ}
    {S : Finset ℕ} {st : DijkstraState} (inv : DFull g bl gi s t S st)
    (hNN : NonnegWeights g) {d : ℚ} {u : ℕ} {pq1 : List (ℚ × ℕ)}
    (hpop : popMin st.pq = some ((d, u), pq1)) (huS : u ∉ S)
    (huG : (g.getStar u).isSome ∨ u = t) :
    ∀ l c, IsWalk g bl gi s u l c → d ≤ c := by
  intro l c hwalk
  obtain ⟨kd, hkd, hle⟩ := dcover inv hNN hwalk huS huG
  exact le_trans (popMin_le hpop kd hkd) hle

theorem relaxStep_spec {g : Graph} {bl : Finset (ℕ × ℕ × ℕ)} {gi s t : ℕ}
    {S : Finset ℕ} {u : ℕ} {d : ℚ} {us : Star} {st : DijkstraState} {vw : ℕ × ℚ}
    (hWF : GraphWF g) (hNN : NonnegWeights g) (hd0 : 0 ≤ d)
    (hus : g.getStar u = some us) (hvw : vw ∈ us.connections)
    (inv : RInv g bl gi s t S u d st) :
    RInv g bl gi s t S u d (relaxStep bl gi u d st vw) ∧
    (∀ x dx, slookup st.dist x = some dx →
      ∃ dx', slookup (relaxStep bl gi u d st vw).dist x = some dx' ∧ dx' ≤ dx) ∧
    (edgeBlocked bl gi u vw.1 = false →
      ∃ dv, slookup (relaxStep bl gi u d st vw).dist vw.1 = some dv ∧ dv ≤ d + vw.2) ∧
    (relaxStep bl gi u d st vw).pq.length ≤ st.pq.length + 1 := by
  obtain ⟨v, w⟩ := vw
  have humem : (u, us) ∈ g.vertices := slookup_eq_some_mem hus
  have hw0 : 0 ≤ w := hNN (u, us) humem (v, w) hvw
  have hedgeU : edgeBlocked bl gi u v = false →
      edgeWeight g bl gi u v = some w := by
    intro hb
    exact edgeWeight_of_parts hus (slookup_of_mem_nodup (hWF.2 (u, us) humem) hvw) hb
  unfold relaxStep
  simp only [relax_blocked_eq]
  by_cases hb : edgeBlocked bl gi u v = true
  · rw [if_pos hb]
    refine ⟨inv, ?_, ?_, ?_⟩
    · intro x dx hx
      exact ⟨dx, hx, le_refl _⟩
    · intro hb2
      rw [hb] at hb2
      cases hb2
    · omega
  · rw [if_neg hb]
    have hbf : edgeBlocked bl gi u v = false := by simpa using hb
    have hedge := hedgeU hbf
    dsimp only
    cases hdv : slookup st.dist v with
    | some dv =>
      simp only [hdv]
      by_cases himp : d + w < dv
      · rw [if_pos (by simpa using himp)]
        have hvu : v ≠ u := by
          intro he
          rw [he, inv.uDist] at hdv
          injection hdv with h2
          rw [h2] at himp
          linarith
        have hvs : v ≠ s := by
          intro he
          rw [he, inv.startDist] at hdv
          injection hdv with h2
          rw [← h2] at himp
          linarith
        have hreachnd : Reach g bl gi s v (d + w) := reach_extend inv.uReach hedge
        have hvS : v ∉ S := by
          intro hmem
          obtain ⟨dv2, hdv2, hopt, _⟩ := inv.settled v hmem
          rw [hdv] at hdv2
          injection hdv2 with h2
          obtain ⟨l2, hl2⟩ := hreachnd
          have := hopt l2 (d + w) hl2
          rw [← h2] at this
          linarith
        refine ⟨?_, ?_, ?_, ?_⟩
        · refine ⟨⟨?_, ?_, ?_, ?_, ?_, ?_, ?_, ?_, ?_⟩, ?_, ?_, ?_, ?_⟩
          · rw [slookup_sset_ne _ _ _ _ (fun hh => hvs hh.symm)]
            exact inv.startDist
          · rw [slookup_sset_ne _ _ _ _ (fun hh => hvs hh.symm)]
            exact inv.startPrev
          · intro x
            by_cases hx : x = v
            · rw [hx, slookup_sset_self, slookup_sset_self]
              simp
            · rw [slookup_sset_ne _ _ _ _ hx, slookup_sset_ne _ _ _ _ hx]
              exact inv.domIff x
          · intro x dx hx
            by_cases hxv : x = v
            · rw [hxv, slookup_sset_self] at hx
              injection hx with h2
              rw [hxv, ← h2]
              exact hreachnd
            · rw [slookup_sset_ne _ _ _ _ hxv] at hx
              exact inv.distReach x dx hx
          · intro kd hkd
            rcases List.mem_append.mp hkd with hold | hnew
            · exact inv.pqReach kd hold
            · simp only [List.mem_singleton] at hnew
              rw [hnew]
              exact hreachnd
          · intro kd hkd
            rcases List.mem_append.mp hkd with hold | hnew
            · obtain ⟨du2, hdu2, hle2⟩ := inv.pqKeyGe kd hold
              by_cases hxv : kd.2 = v
              · rw [hxv, hdv] at hdu2
                injection hdu2 with h2
                refine ⟨d + w, by rw [hxv, slookup_sset_self], ?_⟩
                rw [← h2] at hle2
                linarith
              · rw [← slookup_sset_ne st.dist v kd.2 (d + w) hxv] at hdu2
                exact ⟨du2, hdu2, hle2⟩
            · simp only [List.mem_singleton] at hnew
              rw [hnew]
              exact ⟨d + w, slookup_sset_self _ _ _, le_refl _⟩
          · intro x hxS
            obtain ⟨dx, hdx, hopt, hclose⟩ := inv.settled x hxS
            have hxv : x ≠ v := by
              intro he
              exact hvS (he ▸ hxS)
            refine ⟨dx, by rw [slookup_sset_ne _ _ _ _ hxv]; exact hdx, hopt, ?_⟩
            intro v2 w2 hew2
            obtain ⟨dv2, hdv2, hle2⟩ := hclose v2 w2 hew2
            by_cases hv2 : v2 = v
            · refine ⟨d + w, by rw [hv2, slookup_sset_self], ?_⟩
              rw [hv2, hdv] at hdv2
              injection hdv2 with h2
              rw [← h2] at hle2
              linarith
            · exact ⟨dv2, by rw [slookup_sset_ne _ _ _ _ hv2]; exact hdv2, hle2⟩
          · exact inv.settledGraph
          · obtain ⟨rank, hrank⟩ := inv.chain
            refine ⟨Function.update rank v (rank u + 1), ?_⟩
            intro x px hpx hxs
            by_cases hxv : x = v
            · subst hxv
              rw [slookup_sset_self] at hpx
              injection hpx with h2
              refine ⟨u, w, h2.symm, hedge, d, d + w, ?_, slookup_sset_self _ _ _,
                le_refl _, ?_⟩
              · rw [slookup_sset_ne _ _ _ _ (fun hh => hvu hh.symm)]
                exact inv.uDist
              · right
                rw [Function.update_same, Function.update_noteq (fun hh => hvu hh.symm)]
                omega
            · rw [slookup_sset_ne _ _ _ _ hxv] at hpx
              obtain ⟨u2, w2, hpx2, hew2, du2, dx2, hdu2, hdx2, hle2, hdisj2⟩ :=
                hrank x px hpx hxs
              have hw20 : 0 ≤ w2 := edgeWeight_nonneg hNN hew2
              by_cases hu2v : u2 = v
              · refine ⟨u2, w2, hpx2, hew2, d + w, dx2,
                  by rw [hu2v, slookup_sset_self], ?_, ?_, ?_⟩
                · rw [slookup_sset_ne _ _ _ _ hxv]
                  exact hdx2
                · rw [hu2v, hdv] at hdu2
                  injection hdu2 with h3
                  rw [← h3] at hle2
                  linarith
                · left
                  rw [hu2v, hdv] at hdu2
                  injection hdu2 with h3
                  rw [← h3] at hle2
                  linarith
              · refine ⟨u2, w2, hpx2, hew2, du2, dx2,
                  by rw [slookup_sset_ne _ _ _ _ hu2v]; exact hdu2,
                  by rw [slookup_sset_ne _ _ _ _ hxv]; exact hdx2, hle2, ?_⟩
                rcases hdisj2 with hlt | hrk
                · exact Or.inl hlt
                · right
                  rw [Function.update_noteq hu2v, Function.update_noteq hxv]
                  exact hrk
          · intro x dx hx hxS hxu hxG
            by_cases hxv : x = v
            · rw [hxv, slookup_sset_self] at hx
              injection hx with h2
              rw [hxv, ← h2]
              exact List.mem_append_right _ (List.mem_singleton.mpr rfl)
            · rw [slookup_sset_ne _ _ _ _ hxv] at hx
              exact List.mem_append_left _ (inv.frontierX x dx hx hxS hxu hxG)
          · rw [slookup_sset_ne _ _ _ _ (fun hh => hvu hh.symm)]
            exact inv.uDist
          · exact inv.uOpt
          · exact inv.uReach
        · intro x dx hx
          by_cases hxv : x = v
          · refine ⟨d + w, by rw [hxv, slookup_sset_self], ?_⟩
            rw [hxv, hdv] at hx
            injection hx with h2
            rw [← h2]
            linarith
          · exact ⟨dx, by rw [slookup_sset_ne _ _ _ _ hxv]; exact hx, le_refl _⟩
        · intro _
          exact ⟨d + w, slookup_sset_self _ _ _, le_refl _⟩
        · simp
      · rw [if_neg (by simpa using himp)]
        refine ⟨inv, ?_, ?_, ?_⟩
        · intro x dx hx
          exact ⟨dx, hx, le_refl _⟩
        · intro _
          exact ⟨dv, hdv, by linarith [not_lt.mp himp]⟩
        · omega
    | none =>
      simp only [hdv]
      simp only [if_true]
      have hreachnd : Reach g bl gi s v (d + w) := reach_extend inv.uReach hedge
      have hvu : v ≠ u := by
        intro he
        rw [he, inv.uDist] at hdv
        cases hdv
      have hvs : v ≠ s := by
        intro he
        rw [he, inv.startDist] at hdv
        cases hdv
      have hvS : v ∉ S := by
        intro hmem
        obtain ⟨dv2, hdv2, _, _⟩ := inv.settled v hmem
        rw [hdv] at hdv2
        cases hdv2
      refine ⟨?_, ?_, ?_, ?_⟩
      · refine ⟨⟨?_, ?_, ?_, ?_, ?_, ?_, ?_, ?_, ?_⟩, ?_, ?_, ?_, ?_⟩
        · rw [slookup_sset_ne _ _ _ _ (fun hh => hvs hh.symm)]
          exact inv.startDist
        · rw [slookup_sset_ne _ _ _ _ (fun hh => hvs hh.symm)]
          exact inv.startPrev
        · intro x
          by_cases hx : x = v
          · rw [hx, slookup_sset_self, slookup_sset_self]
            simp
          · rw [slookup_sset_ne _ _ _ _ hx, slookup_sset_ne _ _ _ _ hx]
            exact inv.domIff x
        · intro x dx hx
          by_cases hxv : x = v
          · rw [hxv, slookup_sset_self] at hx
            injection hx with h2
            rw [hxv, ← h2]
            exact hreachnd
          · rw [slookup_sset_ne _ _ _ _ hxv] at hx
            exact inv.distReach x dx hx
        · intro kd hkd
          rcases List.mem_append.mp hkd with hold | hnew
          · exact inv.pqReach kd hold
          · simp only [List.mem_singleton] at hnew
            rw [hnew]
            exact hreachnd
        · intro kd hkd
          rcases List.mem_append.mp hkd with hold | hnew
          · obtain ⟨du2, hdu2, hle2⟩ := inv.pqKeyGe kd hold
            by_cases hxv : kd.2 = v
            · rw [hxv, hdv] at hdu2
              cases hdu2
            · rw [← slookup_sset_ne st.dist v kd.2 (d + w) hxv] at hdu2
              exact ⟨du2, hdu2, hle2⟩
          · simp only [List.mem_singleton] at hnew
            rw [hnew]
            exact ⟨d + w, slookup_sset_self _ _ _, le_refl _⟩
        · intro x hxS
          obtain ⟨dx, hdx, hopt, hclose⟩ := inv.settled x hxS
          have hxv : x ≠ v := by
            intro he
            exact hvS (he ▸ hxS)
          refine ⟨dx, by rw [slookup_sset_ne _ _ _ _ hxv]; exact hdx, hopt, ?_⟩
          intro v2 w2 hew2
          obtain ⟨dv2, hdv2, hle2⟩ := hclose v2 w2 hew2
          by_cases hv2 : v2 = v
          · rw [hv2, hdv] at hdv2
            cases hdv2
          · exact ⟨dv2, by rw [slookup_sset_ne _ _ _ _ hv2]; exact hdv2, hle2⟩
        · exact inv.settledGraph
        · obtain ⟨rank, hrank⟩ := inv.chain
          refine ⟨Function.update rank v (rank u + 1), ?_⟩
          intro x px hpx hxs
          by_cases hxv : x = v
          · subst hxv
            rw [slookup_sset_self] at hpx
            injection hpx with h2
            refine ⟨u, w, h2.symm, hedge, d, d + w, ?_, slookup_sset_self _ _ _,
              le_refl _, ?_⟩
            · rw [slookup_sset_ne _ _ _ _ (fun hh => hvu hh.symm)]
              exact inv.uDist
            · right
              rw [Function.update_same, Function.update_noteq (fun hh => hvu hh.symm)]
              omega
          · rw [slookup_sset_ne _ _ _ _ hxv] at hpx
            obtain ⟨u2, w2, hpx2, hew2, du2, dx2, hdu2, hdx2, hle2, hdisj2⟩ :=
              hrank x px hpx hxs
            by_cases hu2v : u2 = v
            · rw [hu2v, hdv] at hdu2
              cases hdu2
            · refine ⟨u2, w2, hpx2, hew2, du2, dx2,
                by rw [slookup_sset_ne _ _ _ _ hu2v]; exact hdu2,
                by rw [slookup_sset_ne _ _ _ _ hxv]; exact hdx2, hle2, ?_⟩
              rcases hdisj2 with hlt | hrk
              · exact Or.inl hlt
              · right
                rw [Function.update_noteq hu2v, Function.update_noteq hxv]
                exact hrk
        · intro x dx hx hxS hxu hxG
          by_cases hxv : x = v
          · rw [hxv, slookup_sset_self] at hx
            injection hx with h2
            rw [hxv, ← h2]
            exact List.mem_append_right _ (List.mem_singleton.mpr rfl)
          · rw [slookup_sset_ne _ _ _ _ hxv] at hx
            exact List.mem_append_left _ (inv.frontierX x dx hx hxS hxu hxG)
        · rw [slookup_sset_ne _ _ _ _ (fun hh => hvu hh.symm)]
          exact inv.uDist
        · exact inv.uOpt
        · exact inv.uReach
      · intro x dx hx
        by_cases hxv : x = v
        · rw [hxv, hdv] at hx
          cases hx
        · exact ⟨dx, by rw [slookup_sset_ne _ _ _ _ hxv]; exact hx, le_refl _⟩
      · intro _
        exact ⟨d + w, slookup_sset_self _ _ _, le_refl _⟩
      · simp

theorem relaxFold {g : Graph} {bl : Finset (ℕ × ℕ × ℕ)} {gi s t : ℕ}
    {S : Finset ℕ} {u : ℕ} {d : ℚ} {us : Star}
    (hWF : GraphWF g) (hNN : NonnegWeights g) (hd0 : 0 ≤ d)
    (hus : g.getStar u = some us) :
    ∀ (L : List (ℕ × ℚ)) (st : DijkstraState), (∀ vw ∈ L, vw ∈ us.connections) →
    RInv g bl gi s t S u d st →
    RInv g bl gi s t S u d (L.foldl (relaxStep bl gi u d) st) ∧
    (∀ x dx, slookup st.dist x = some dx →
      ∃ dx', slookup (L.foldl (relaxStep bl gi u d) st).dist x = some dx' ∧ dx' ≤ dx) ∧
    (∀ vw ∈ L, edgeBlocked bl gi u vw.1 = false →
      ∃ dv, slookup (L.foldl (relaxStep bl gi u d) st).dist vw.1 = some dv ∧
        dv ≤ d + vw.2) ∧
    (L.foldl (relaxStep bl gi u d) st).pq.length ≤ st.pq.length + L.length := by
  intro L
  induction L with
  | nil =>
    intro st _ inv
    refine ⟨inv, fun x dx hx => ⟨dx, hx, le_refl _⟩, ?_, ?_⟩
    · intro vw hvw
      cases hvw
    · simp
  | cons vw L ih =>
    intro st hmem inv
    have hvw : vw ∈ us.connections := hmem vw (List.mem_cons_self _ _)
    obtain ⟨inv1, mono1, close1, len1⟩ := relaxStep_spec hWF hNN hd0 hus hvw inv
    obtain ⟨inv2, mono2, close2, len2⟩ := ih (relaxStep bl gi u d st vw)
      (fun x hx => hmem x (List.mem_cons_of_mem _ hx)) inv1
    simp only [List.foldl_cons]
    refine ⟨inv2, ?_, ?_, ?_⟩
    · intro x dx hx
      obtain ⟨d1, h1, hle1⟩ := mono1 x dx hx
      obtain ⟨d2, h2, hle2⟩ := mono2 x d1 h1
      exact ⟨d2, h2, le_trans hle2 hle1⟩
    · intro xw hxw hbf
      rcases List.mem_cons.mp hxw with heq | htl
      · subst heq
        obtain ⟨dv, hdv, hle⟩ := close1 hbf
        obtain ⟨dv2, hdv2, hle2⟩ := mono2 _ dv hdv
        exact ⟨dv2, hdv2, le_trans hle2 hle⟩
      · exact close2 xw htl hbf
    · simp only [List.length_cons]
      omega

theorem dcore_subset_pq {g : Graph} {bl : Finset (ℕ × ℕ × ℕ)} {gi s t : ℕ}
    {S : Finset ℕ} {st : DijkstraState} {pq1 : List (ℚ × ℕ)}
    (inv : DCore g bl gi s t S st) (hsub : ∀ kd ∈ pq1, kd ∈ st.pq) :
    DCore g bl gi s t S { st with pq := pq1 } := by
  refine ⟨inv.startDist, inv.startPrev, inv.domIff, inv.distReach, ?_, ?_,
    inv.settled, inv.settledGraph, inv.chain⟩
  · intro kd hkd
    exact inv.pqReach kd (hsub kd hkd)
  · intro kd hkd
    exact inv.pqKeyGe kd (hsub kd hkd)

theorem dfull_drop_pop {g : Graph} {bl : Finset (ℕ × ℕ × ℕ)} {gi s t : ℕ}
    {S : Finset ℕ} {st : DijkstraState} {d : ℚ} {u : ℕ} {pq1 : List (ℚ × ℕ)}
    (inv : DFull g bl gi s t S st) (hpop : popMin st.pq = some ((d, u), pq1))
    (hu : u ∈ S ∨ (¬(g.getStar u).isSome ∧ u ≠ t) ∨
      (∃ du, slookup st.dist u = some du ∧ du ≠ d)) :
    DFull g bl gi s t S { st with pq := pq1 } := by
  have hperm := popMin_perm hpop
  have hsub : ∀ kd ∈ pq1, kd ∈ st.pq := by
    intro kd hkd
    exact hperm.mem_iff.mpr (List.mem_cons_of_mem _ hkd)
  refine ⟨dcore_subset_pq inv.toDCore hsub, ?_⟩
  intro x dx hdx hxS hxG
  have hmem := inv.frontier x dx hdx hxS hxG
  rw [hperm.mem_iff] at hmem
  rcases List.mem_cons.mp hmem with he | h1
  · exfalso
    have hxu : x = u := congrArg Prod.snd he
    have hdxd : dx = d := congrArg Prod.fst he
    rcases hu with hS | ⟨hnG, hnt⟩ | ⟨du, hdu, hne⟩
    · exact hxS (hxu ▸ hS)
    · rcases hxG with hG | hT
      · exact hnG (hxu ▸ hG)
      · exact hnt (hxu ▸ hT)
    · rw [hxu] at hdx
      rw [hdx] at hdu
      injection hdu with h2
      exact hne (h2 ▸ hdxd.symm ▸ rfl)
  · exact h1

theorem settle_rinv {g : Graph} {bl : Finset (ℕ × ℕ × ℕ)} {gi s t : ℕ}
    {S : Finset ℕ} {st : DijkstraState} {d : ℚ} {u : ℕ} {pq1 : List (ℚ × ℕ)}
    (hNN : NonnegWeights g) (inv : DFull g bl gi s t S st)
    (hpop : popMin st.pq = some ((d, u), pq1))
    (hdu : slookup st.dist u = some d) (huS : u ∉ S)
    (huG : (g.getStar u).isSome ∨ u = t) :
    RInv g bl gi s t S u d { st with pq := pq1 } := by
  have hperm := popMin_perm hpop
  have hsub : ∀ kd ∈ pq1, kd ∈ st.pq := by
    intro kd hkd
    exact hperm.mem_iff.mpr (List.mem_cons_of_mem _ hkd)
  refine ⟨dcore_subset_pq inv.toDCore hsub, ?_, hdu,
    pop_settles inv hNN hpop huS huG, inv.distReach u d hdu⟩
  intro x dx hdx hxS hxu hxG
  have hmem := inv.frontier x dx hdx hxS hxG
  rw [hperm.mem_iff] at hmem
  rcases List.mem_cons.mp hmem with he | h1
  · exact absurd (congrArg Prod.snd he) hxu
  · exact h1

theorem relaxStep_settled {g : Graph} {bl : Finset (ℕ × ℕ × ℕ)} {gi u : ℕ}
    {d : ℚ} {us : Star} {st : DijkstraState} {vw : ℕ × ℚ}
    (hWF : GraphWF g) (hus : g.getStar u = some us) (hvw : vw ∈ us.connections)
    (hclose : ∀ v w, edgeWeight g bl gi u v = some w →
      ∃ dv, slookup st.dist v = some dv ∧ dv ≤ d + w) :
    relaxStep bl gi u d st vw = st := by
  obtain ⟨v, w⟩ := vw
  unfold relaxStep
  simp only [relax_blocked_eq]
  by_cases hb : edgeBlocked bl gi u v = true
  · rw [if_pos hb]
  · rw [if_neg hb]
    have hbf : edgeBlocked bl gi u v = false := by simpa using hb
    have humem : (u, us) ∈ g.vertices := slookup_eq_some_mem hus
    have hedge : edgeWeight g bl gi u v = some w :=
      edgeWeight_of_parts hus (slookup_of_mem_nodup (hWF.2 (u, us) humem) hvw) hbf
    obtain ⟨dv, hdv, hle⟩ := hclose v w hedge
    dsimp only
    rw [hdv]
    dsimp only
    rw [decide_eq_false (not_lt.mpr hle)]
    rw [if_neg Bool.false_ne_true]

theorem relaxFold_settled {g : Graph} {bl : Finset (ℕ × ℕ × ℕ)} {gi u : ℕ}
    {d : ℚ} {us : Star}
    (hWF : GraphWF g) (hus : g.getStar u = some us) :
    ∀ (L : List (ℕ × ℚ)) (st : DijkstraState), (∀ vw ∈ L, vw ∈ us.connections) →
    (∀ v w, edgeWeight g bl gi u v = some w →
      ∃ dv, slookup st.dist v = some dv ∧ dv ≤ d + w) →
    L.foldl (relaxStep bl gi u d) st = st := by
  intro L
  induction L with
  | nil =>
    intro st _ _
    rfl
  | cons vw L ih =>
    intro st hmem hclose
    have h1 : relaxStep bl gi u d st vw = st :=
      relaxStep_settled hWF hus (hmem vw (List.mem_cons_self _ _)) hclose
    rw [List.foldl_cons, h1]
    exact ih st (fun x hx => hmem x (List.mem_cons_of_mem _ hx)) hclose

theorem dfull_after_fold {g : Graph} {bl : Finset (ℕ × ℕ × ℕ)} {gi s t : ℕ}
    {S : Finset ℕ} {u : ℕ} {d : ℚ} {us : Star} {st2 : DijkstraState}
    (hus : g.getStar u = some us)
    (rinv : RInv g bl gi s t S u d st2)
    (hclose : ∀ v w, edgeWeight g bl gi u v = some w →
      ∃ dv, slookup st2.dist v = some dv ∧ dv ≤ d + w) :
    DFull g bl gi s t (insert u S) st2 := by
  refine ⟨⟨rinv.startDist, rinv.startPrev, rinv.domIff, rinv.distReach,
    rinv.pqReach, rinv.pqKeyGe, ?_, ?_, rinv.chain⟩, ?_⟩
  · intro x hxS
    rcases Finset.mem_insert.mp hxS with he | hS
    · subst he
      exact ⟨d, rinv.uDist, rinv.uOpt, hclose⟩
    · exact rinv.settled x hS
  · intro x hxS
    rcases Finset.mem_insert.mp hxS with he | hS
    · subst he
      rw [hus]
      rfl
    · exact rinv.settledGraph x hS
  · intro x dx hdx hxS hxG
    have hxS2 : x ∉ S := fun h => hxS (Finset.mem_insert_of_mem h)
    have hxu : x ≠ u := fun h => hxS (h ▸ Finset.mem_insert_self u S)
    exact rinv.frontierX x dx hdx hxS2 hxu hxG

theorem dijkstraLoop_spec {g : Graph} {bl : Finset (ℕ × ℕ × ℕ)} {gi s t : ℕ}
    (hWF : GraphWF g) (hNN : NonnegWeights g) :
    ∀ (fuel : ℕ) (S : Finset ℕ) (st : DijkstraState),
      DFull g bl gi s t S st →
      dijkstraMeasure g S st < fuel →
      ∃ S', DCore g bl gi s t S' (dijkstraLoop g bl gi t fuel st) ∧
        (((dijkstraLoop g bl gi t fuel st).pq = [] ∧
          DFull g bl gi s t S' (dijkstraLoop g bl gi t fuel st)) ∨
          TOpt g bl gi s t (dijkstraLoop g bl gi t fuel st)) := by
  intro fuel
  induction fuel with
  | zero =>
    intro S st inv hm
    exact absurd hm (Nat.not_lt_zero _)
  | succ fuel ih =>
    intro S st inv hm
    cases hpop : popMin st.pq with
    | none =>
      have hstep : dijkstraLoop g bl gi t (fuel + 1) st = st := by
        simp only [dijkstraLoop, hpop]
      rw [hstep]
      exact ⟨S, inv.toDCore, Or.inl ⟨popMin_none hpop, inv⟩⟩
    | some pr =>
      obtain ⟨⟨d, u⟩, pq1⟩ := pr
      have hperm := popMin_perm hpop
      have hsub : ∀ kd ∈ pq1, kd ∈ st.pq := by
        intro kd hkd
        exact hperm.mem_iff.mpr (List.mem_cons_of_mem _ hkd)
      have hlen : st.pq.length = pq1.length + 1 := by
        have h2 := hperm.length_eq
        simpa using h2
      have hd0 : 0 ≤ d := reach_nonneg hNN (inv.pqReach (d, u) (popMin_mem hpop))
      obtain ⟨du0, hdu0, hdu0le⟩ := inv.pqKeyGe (d, u) (popMin_mem hpop)
      by_cases hut : u = t
      · have hstep : dijkstraLoop g bl gi t (fuel + 1) st = { st with pq := pq1 } := by
          simp only [dijkstraLoop, hpop]
          rw [if_pos hut]
        rw [hstep]
        subst hut
        refine ⟨S, dcore_subset_pq inv.toDCore hsub, Or.inr ?_⟩
        by_cases htS : u ∈ S
        · obtain ⟨dt, hdt, hopt, _⟩ := inv.settled u htS
          exact ⟨dt, hdt, hopt⟩
        · have hopt := pop_settles inv hNN hpop htS (Or.inr rfl)
          refine ⟨du0, hdu0, ?_⟩
          intro l c hw
          exact le_trans hdu0le (hopt l c hw)
      · cases hdu : slookup st.dist u with
        | none =>
          rw [hdu0] at hdu
          cases hdu
        | some du =>
          have hdud : du = du0 := by
            rw [hdu] at hdu0
            exact Option.some.inj hdu0
          by_cases hskip : du < d
          · have hstep : dijkstraLoop g bl gi t (fuel + 1) st =
                dijkstraLoop g bl gi t fuel { st with pq := pq1 } := by
              simp only [dijkstraLoop, hpop]
              rw [if_neg hut]
              rw [hdu]
              dsimp only
              rw [decide_eq_true hskip, if_pos rfl]
            rw [hstep]
            have hdfull : DFull g bl gi s t S { st with pq := pq1 } :=
              dfull_drop_pop inv hpop (Or.inr (Or.inr ⟨du, hdu, ne_of_lt hskip⟩))
            have hm2 : dijkstraMeasure g S { st with pq := pq1 } < fuel := by
              unfold dijkstraMeasure at hm ⊢
              dsimp only at hm ⊢
              omega
            exact ih S _ hdfull hm2
          · have hded : du = d := le_antisymm (hdud ▸ hdu0le) (not_lt.mp hskip)
            rw [hded] at hdu
            cases hstar : g.getStar u with
            | none =>
              have hstep : dijkstraLoop g bl gi t (fuel + 1) st =
                  dijkstraLoop g bl gi t fuel { st with pq := pq1 } := by
                simp only [dijkstraLoop, hpop]
                rw [if_neg hut]
                rw [hdu]
                dsimp only
                rw [decide_eq_false (lt_irrefl d), if_neg Bool.false_ne_true, hstar]
              rw [hstep]
              have hnG : ¬(g.getStar u).isSome := by
                rw [hstar]
                simp
              have hdfull : DFull g bl gi s t S { st with pq := pq1 } :=
                dfull_drop_pop inv hpop (Or.inr (Or.inl ⟨hnG, hut⟩))
              have hm2 : dijkstraMeasure g S { st with pq := pq1 } < fuel := by
                unfold dijkstraMeasure at hm ⊢
                dsimp only at hm ⊢
                omega
              exact ih S _ hdfull hm2
            | some us =>
              by_cases huS : u ∈ S
              · obtain ⟨duS, hduS, hoptS, hcloseS⟩ := inv.settled u huS
                have hdusd : duS = d := by
                  rw [hdu] at hduS
                  exact (Option.some.inj hduS).symm
                have hfold : us.connections.foldl (relaxStep bl gi u d)
                    { st with pq := pq1 } = { st with pq := pq1 } := by
                  apply relaxFold_settled hWF hstar us.connections _ (fun _ h => h)
                  intro v w hew
                  obtain ⟨dv, hdv, hle⟩ := hcloseS v w hew
                  exact ⟨dv, hdv, by rw [← hdusd]; exact hle⟩
                have hstep : dijkstraLoop g bl gi t (fuel + 1) st =
                    dijkstraLoop g bl gi t fuel { st with pq := pq1 } := by
                  simp only [dijkstraLoop, hpop]
                  rw [if_neg hut]
                  rw [hdu]
                  dsimp only
                  rw [decide_eq_false (lt_irrefl d), if_neg Bool.false_ne_true, hstar]
                  dsimp only
                  rw [hfold]
                rw [hstep]
                have hdfull : DFull g bl gi s t S { st with pq := pq1 } :=
                  dfull_drop_pop inv hpop (Or.inl huS)
                have hm2 : dijkstraMeasure g S { st with pq := pq1 } < fuel := by
                  unfold dijkstraMeasure at hm ⊢
                  dsimp only at hm ⊢
                  omega
                exact ih S _ hdfull hm2
              · have huG : (g.getStar u).isSome ∨ u = t := by
                  left
                  rw [hstar]
                  rfl
                have rinv := settle_rinv hNN inv hpop hdu huS huG
                obtain ⟨rinv2, mono2, close2, len2⟩ :=
                  relaxFold hWF hNN hd0 hstar us.connections { st with pq := pq1 }
                    (fun _ h => h) rinv
                have hclose2 : ∀ v w, edgeWeight g bl gi u v = some w →
                    ∃ dv, slookup (us.connections.foldl (relaxStep bl gi u d)
                      { st with pq := pq1 }).dist v = some dv ∧ dv ≤ d + w := by
                  intro v w hew
                  obtain ⟨us2, hus2, hwv, hbf⟩ := edgeWeight_spec hew
                  have hus2e : us2 = us := by
                    rw [hstar] at hus2
                    exact (Option.some.inj hus2).symm
                  rw [hus2e] at hwv
                  exact close2 (v, w) (slookup_eq_some_mem hwv) hbf
                have hdfull2 := dfull_after_fold hstar rinv2 hclose2
                have humem : (u, us) ∈ g.vertices := slookup_eq_some_mem hstar
                have huV : u ∈ vertexIds g := by
                  unfold vertexIds
                  exact List.mem_toFinset.mpr (List.mem_map.mpr ⟨(u, us), humem, rfl⟩)
                have huVS : u ∈ vertexIds g \ S := Finset.mem_sdiff.mpr ⟨huV, huS⟩
                have hdeg : starDeg g u = us.connections.length := by
                  unfold starDeg
                  rw [hstar]
                have hsdiff : vertexIds g \ insert u S = (vertexIds g \ S).erase u := by
                  ext x
                  simp only [Finset.mem_sdiff, Finset.mem_erase, Finset.mem_insert]
                  tauto
                have hsum : ((vertexIds g \ insert u S).sum fun x => 1 + starDeg g x) +
                    (1 + starDeg g u) =
                    (vertexIds g \ S).sum fun x => 1 + starDeg g x := by
                  rw [hsdiff]
                  exact Finset.sum_erase_add _ _ huVS
                have hm2 : dijkstraMeasure g (insert u S)
                    (us.connections.foldl (relaxStep bl gi u d)
                      { st with pq := pq1 }) < fuel := by
                  unfold dijkstraMeasure at hm ⊢
                  have hl2 : (us.connections.foldl (relaxStep bl gi u d)
                      { st with pq := pq1 }).pq.length ≤
                      pq1.length + us.connections.length := len2
                  rw [hdeg] at hsum
                  omega
                have hstep : dijkstraLoop g bl gi t (fuel + 1) st =
                    dijkstraLoop g bl gi t fuel
                      (us.connections.foldl (relaxStep bl gi u d)
                        { st with pq := pq1 }) := by
                  simp only [dijkstraLoop, hpop]
                  rw [if_neg hut]
                  rw [hdu]
                  dsimp only
                  rw [decide_eq_false (lt_irrefl d), if_neg Bool.false_ne_true, hstar]
                rw [hstep]
                exact ih (insert u S) _ hdfull2 hm2

theorem slookup_singleton {κ α : Type} [BEq κ] (k k' : κ) (v : α) :
    slookup [(k, v)] k' = if k == k' then some v else none := by
  rw [slookup_cons]
  cases h : (k == k') with
  | false => simp [h, slookup]
  | true => simp [h]

theorem dfull_init (g : Graph) (bl : Finset (ℕ × ℕ × ℕ)) (gi s t : ℕ) :
    DFull g bl gi s t ∅ { dist := [(s, 0)], prev := [(s, none)], pq := [(0, s)] } := by
  have hlq : ∀ (u : ℕ), slookup [(s, (0 : ℚ))] u =
      if s = u then some 0 else none := by
    intro u
    rw [slookup_singleton]
    by_cases h : s = u
    · simp [h]
    · simp [h]
  have hlp : ∀ (u : ℕ), slookup [(s, (none : Option ℕ))] u =
      if s = u then some none else none := by
    intro u
    rw [slookup_singleton]
    by_cases h : s = u
    · simp [h]
    · simp [h]
  refine ⟨⟨?_, ?_, ?_, ?_, ?_, ?_, ?_, ?_, ?_⟩, ?_⟩
  · rw [hlq]
    simp
  · rw [hlp]
    simp
  · intro u
    rw [hlq u, hlp u]
    by_cases h : s = u <;> simp [h]
  · intro u d hd
    rw [hlq u] at hd
    by_cases h : s = u
    · rw [if_pos h] at hd
      have h2 : (0 : ℚ) = d := Option.some.inj hd
      rw [← h, ← h2]
      exact ⟨[s], isWalk_single g bl gi s⟩
    · rw [if_neg h] at hd
      cases hd
  · intro kd hkd
    simp only [List.mem_singleton] at hkd
    rw [hkd]
    exact ⟨[s], isWalk_single g bl gi s⟩
  · intro kd hkd
    simp only [List.mem_singleton] at hkd
    rw [hkd]
    refine ⟨0, ?_, le_refl _⟩
    rw [hlq]
    simp
  · intro u hu
    exact absurd hu (Finset.not_mem_empty u)
  · intro u hu
    exact absurd hu (Finset.not_mem_empty u)
  · refine ⟨fun _ => 0, ?_⟩
    intro v pv hpv hvs
    rw [hlp v] at hpv
    by_cases h : s = v
    · exact absurd h.symm hvs
    · rw [if_neg h] at hpv
      cases hpv
  · intro x dx hdx hxS hxG
    rw [hlq x] at hdx
    by_cases h : s = x
    · rw [if_pos h] at hdx
      have h2 : (0 : ℚ) = dx := Option.some.inj hdx
      rw [← h, ← h2]
      exact List.mem_singleton.mpr rfl
    · rw [if_neg h] at hdx
      cases hdx

theorem dijkstra_measure_init {g : Graph} (hWF : GraphWF g) (s : ℕ) :
    dijkstraMeasure g ∅ { dist := [(s, 0)], prev := [(s, none)], pq := [(0, s)] }
      < dijkstraFuel g := by
  unfold dijkstraMeasure dijkstraFuel
  rw [Finset.sdiff_empty]
  have h1 : (vertexIds g).sum (fun u => 1 + starDeg g u) =
      ((g.vertices.map (·.1)).map (fun u => 1 + starDeg g u)).sum := by
    unfold vertexIds
    exact List.sum_toFinset _ hWF.1
  have h2 : (g.vertices.map (·.1)).map (fun u => 1 + starDeg g u) =
      g.vertices.map (fun p => 1 + p.2.connections.length) := by
    rw [List.map_map]
    apply List.map_congr_left
    intro p hp
    have hst : g.getStar p.1 = some p.2 := by
      unfold Graph.getStar
      apply slookup_of_mem_nodup hWF.1
      rw [Prod.mk.eta]
      exact hp
    simp [Function.comp, starDeg, hst]
  rw [h1, h2]
  have h3 : ({ dist := [(s, 0)], prev := [(s, none)], pq := [(0, s)] } : DijkstraState).pq.length = 1 := rfl
  omega

theorem recKeyLt_irrefl (st : DijkstraState) (rank : ℕ → ℕ) (v : ℕ) :
    recKeyLt st rank v v = false := by
  unfold recKeyLt
  cases hv : slookup st.dist v with
  | none => rfl
  | some dv =>
    apply decide_eq_false
    rintro (h | ⟨-, h⟩)
    · exact absurd h (lt_irrefl _)
    · exact absurd h (lt_irrefl _)

theorem recKeyLt_trans {st : DijkstraState} {rank : ℕ → ℕ} {x u v : ℕ}
    (h1 : recKeyLt st rank x u = true) (h2 : recKeyLt st rank u v = true) :
    recKeyLt st rank x v = true := by
  unfold recKeyLt at h1 h2 ⊢
  cases hx : slookup st.dist x <;> cases hu : slookup st.dist u <;>
    cases hv : slookup st.dist v <;> simp only [hx, hu, hv] at h1 h2 ⊢ <;>
    first
    | (exfalso; exact Bool.false_ne_true h1)
    | (exfalso; exact Bool.false_ne_true h2)
    | skip
  rw [decide_eq_true_eq] at h1 h2 ⊢
  rcases h1 with h1 | ⟨he1, hr1⟩ <;> rcases h2 with h2 | ⟨he2, hr2⟩
  · exact Or.inl (lt_trans h1 h2)
  · exact Or.inl (lt_of_lt_of_eq h1 he2)
  · exact Or.inl (lt_of_eq_of_lt he1 h2)
  · exact Or.inr ⟨he1.trans he2, lt_trans hr1 hr2⟩

theorem recMu_lt {st : DijkstraState} {rank : ℕ → ℕ} {u v : ℕ}
    (hu : (slookup st.prev u).isSome)
    (hlt : recKeyLt st rank u v = true) :
    recMu st rank u < recMu st rank v := by
  unfold recMu
  have hsub : ((st.prev.map (·.1)).toFinset.filter
      (fun x => recKeyLt st rank x u = true)) ⊆
      ((st.prev.map (·.1)).toFinset.filter
        (fun x => recKeyLt st rank x v = true)) := by
    intro x hx
    rw [Finset.mem_filter] at hx ⊢
    exact ⟨hx.1, recKeyLt_trans hx.2 hlt⟩
  apply Finset.card_lt_card
  rw [Finset.ssubset_iff_of_subset hsub]
  refine ⟨u, ?_, ?_⟩
  · rw [Finset.mem_filter]
    refine ⟨?_, hlt⟩
    rw [List.mem_toFinset]
    obtain ⟨pu, hpu⟩ := Option.isSome_iff_exists.mp hu
    exact List.mem_map.mpr ⟨(u, pu), slookup_eq_some_mem hpu, rfl⟩
  · rw [Finset.mem_filter]
    rintro ⟨-, habs⟩
    rw [recKeyLt_irrefl] at habs
    cases habs

theorem recMu_lt_length {st : DijkstraState} {rank : ℕ → ℕ} {v : ℕ}
    (hv : (slookup st.prev v).isSome) :
    recMu st rank v < st.prev.length := by
  unfold recMu
  have hvP : v ∈ (st.prev.map (·.1)).toFinset := by
    rw [List.mem_toFinset]
    obtain ⟨pv, hpv⟩ := Option.isSome_iff_exists.mp hv
    exact List.mem_map.mpr ⟨(v, pv), slookup_eq_some_mem hpv, rfl⟩
  have hcard : ((st.prev.map (·.1)).toFinset.filter
      (fun x => recKeyLt st rank x v = true)).card <
      (st.prev.map (·.1)).toFinset.card := by
    apply Finset.card_lt_card
    rw [Finset.ssubset_iff_of_subset (Finset.filter_subset _ _)]
    refine ⟨v, hvP, ?_⟩
    rw [Finset.mem_filter]
    rintro ⟨-, habs⟩
    rw [recKeyLt_irrefl] at habs
    cases habs
  have hle : (st.prev.map (·.1)).toFinset.card ≤ st.prev.length := by
    have h2 := List.toFinset_card_le (st.prev.map (·.1))
    have h3 : (st.prev.map (·.1)).length = st.prev.length := by simp
    omega
  omega

theorem reconstruct_spec {g : Graph} {bl : Finset (ℕ × ℕ × ℕ)} {gi s t : ℕ}
    {S : Finset ℕ} {st : DijkstraState} (hNN : NonnegWeights g)
    (inv : DCore g bl gi s t S st) (rank : ℕ → ℕ)
    (hrank : ∀ v pv, slookup st.prev v = some pv → v ≠ s →
      ∃ u w, pv = some u ∧ edgeWeight g bl gi u v = some w ∧
        ∃ du dv, slookup st.dist u = some du ∧ slookup st.dist v = some dv ∧
          du + w ≤ dv ∧ (du < dv ∨ rank u < rank v)) :
    ∀ (n fuel : ℕ) (v : ℕ) (dv : ℚ), slookup st.dist v = some dv →
      recMu st rank v ≤ n → n < fuel →
      ∃ l c, IsWalk g bl gi s v (l ++ [v]) c ∧ c ≤ dv ∧
        ∀ acc, reconstruct st.prev fuel v acc = acc ++ l.reverse := by
  intro n
  induction n using Nat.strong_induction_on with
  | _ n ih =>
    intro fuel v dv hdv hmu hfuel
    cases fuel with
    | zero => omega
    | succ m =>
      have hprevS : (slookup st.prev v).isSome := (inv.domIff v).mp (by rw [hdv]; rfl)
      obtain ⟨pv, hpv⟩ := Option.isSome_iff_exists.mp hprevS
      by_cases hvs : v = s
      · subst hvs
        have hpv0 : pv = none := by
          rw [inv.startPrev] at hpv
          exact (Option.some.inj hpv).symm
        subst hpv0
        refine ⟨[], 0, ?_, ?_, ?_⟩
        · exact isWalk_single g bl gi v
        · rw [inv.startDist] at hdv
          rw [← Option.some.inj hdv]
        · intro acc
          simp only [reconstruct]
          rw [inv.startPrev]
          simp
      · obtain ⟨u, w, hpvu, hedge, du, dv2, hdu, hdv2, hle, hdisj⟩ :=
          hrank v pv hpv hvs
        rw [hpvu] at hpv
        have hdveq : dv = dv2 := by
          rw [hdv] at hdv2
          exact Option.some.inj hdv2
        have hw0 : 0 ≤ w := edgeWeight_nonneg hNN hedge
        have hklt : recKeyLt st rank u v = true := by
          unfold recKeyLt
          rw [hdu, hdv]
          apply decide_eq_true
          rcases hdisj with h | h
          · exact Or.inl (by rw [hdveq]; exact h)
          · by_cases hde : du = dv
            · exact Or.inr ⟨hde, h⟩
            · refine Or.inl (lt_of_le_of_ne ?_ hde)
              rw [hdveq]
              linarith
        have hprevuS : (slookup st.prev u).isSome :=
          (inv.domIff u).mp (by rw [hdu]; rfl)
        have hmuu : recMu st rank u < recMu st rank v := recMu_lt hprevuS hklt
        have hnm : recMu st rank u < n := lt_of_lt_of_le hmuu hmu
        obtain ⟨l1, c1, hwalk1, hc1, hrec1⟩ :=
          ih (recMu st rank u) hnm m u du hdu (le_refl _) (by omega)
        refine ⟨l1 ++ [u], c1 + w, ?_, ?_, ?_⟩
        · exact isWalk_extend hwalk1 hedge
        · rw [hdveq]
          linarith
        · intro acc
          have hstep : reconstruct st.prev (m + 1) v acc =
              reconstruct st.prev m u (acc ++ [u]) := by
            simp only [reconstruct]
            rw [hpv]
          rw [hstep, hrec1 (acc ++ [u])]
          simp

theorem dijkstraPath_correct {g : Graph} {bl : Finset (ℕ × ℕ × ℕ)} {gi s t : ℕ}
    (hWF : GraphWF g) (hNN : NonnegWeights g)
    (hreach : ∃ c, Reach g bl gi s t c) :
    ∃ c, IsWalk g bl gi s t (dijkstraPath g bl gi s t) c ∧
      ∀ l c', IsWalk g bl gi s t l c' → c ≤ c' := by
  obtain ⟨S', core, hres⟩ := dijkstraLoop_spec hWF hNN (dijkstraFuel g) ∅
    { dist := [(s, 0)], prev := [(s, none)], pq := [(0, s)] }
    (dfull_init g bl gi s t) (dijkstra_measure_init hWF s)
  have htopt : TOpt g bl gi s t (dijkstraLoop g bl gi t (dijkstraFuel g)
      { dist := [(s, 0)], prev := [(s, none)], pq := [(0, s)] }) := by
    rcases hres with ⟨hpq, dfull⟩ | h
    · obtain ⟨c, l, hwalk⟩ := hreach
      by_cases htS : t ∈ S'
      · obtain ⟨dt, hdt, hopt, _⟩ := core.settled t htS
        exact ⟨dt, hdt, hopt⟩
      · obtain ⟨kd, hkd, _⟩ := dcover dfull hNN hwalk htS (Or.inr rfl)
        rw [hpq] at hkd
        cases hkd
    · exact h
  obtain ⟨dt, hdt, hopt⟩ := htopt
  have hprevt : (slookup (dijkstraLoop g bl gi t (dijkstraFuel g)
      { dist := [(s, 0)], prev := [(s, none)], pq := [(0, s)] }).prev t).isSome :=
    (core.domIff t).mp (by rw [hdt]; rfl)
  obtain ⟨rank, hrank⟩ := core.chain
  obtain ⟨l, c, hwalk, hc, hrec⟩ := reconstruct_spec hNN core rank hrank
    (recMu (dijkstraLoop g bl gi t (dijkstraFuel g)
      { dist := [(s, 0)], prev := [(s, none)], pq := [(0, s)] }) rank t)
    (dijkstraLoop g bl gi t (dijkstraFuel g)
      { dist := [(s, 0)], prev := [(s, none)], pq := [(0, s)] }).prev.length
    t dt hdt (le_refl _) (recMu_lt_length hprevt)
  have hpath : dijkstraPath g bl gi s t = l ++ [t] := by
    unfold dijkstraPath
    rw [if_neg ?_]
    · rw [hrec [t]]
      simp
    · rintro ⟨h1, -⟩
      rw [h1] at hprevt
      cases hprevt
  refine ⟨c, ?_, ?_⟩
  · rw [hpath]
    exact hwalk
  · intro l' c' hw'
    exact le_trans hc (hopt l' c' hw')

theorem dijkstraPath_unreachable {g : Graph} {bl : Finset (ℕ × ℕ × ℕ)}
    {gi s t : ℕ} (hWF : GraphWF g) (hNN : NonnegWeights g)
    (hunreach : ¬∃ c, Reach g bl gi s t c) :
    dijkstraPath g bl gi s t = [] := by
  obtain ⟨S', core, -⟩ := dijkstraLoop_spec hWF hNN (dijkstraFuel g) ∅
    { dist := [(s, 0)], prev := [(s, none)], pq := [(0, s)] }
    (dfull_init g bl gi s t) (dijkstra_measure_init hWF s)
  have hts : t ≠ s := by
    intro he
    exact hunreach ⟨0, ⟨[s], by rw [he]; exact isWalk_single g bl gi s⟩⟩
  have hdist : slookup (dijkstraLoop g bl gi t (dijkstraFuel g)
      { dist := [(s, 0)], prev := [(s, none)], pq := [(0, s)] }).dist t = none := by
    cases hd : slookup (dijkstraLoop g bl gi t (dijkstraFuel g)
        { dist := [(s, 0)], prev := [(s, none)], pq := [(0, s)] }).dist t with
    | none => rfl
    | some d => exact absurd ⟨d, core.distReach t d hd⟩ hunreach
  have hprev : slookup (dijkstraLoop g bl gi t (dijkstraFuel g)
      { dist := [(s, 0)], prev := [(s, none)], pq := [(0, s)] }).prev t = none := by
    cases hp : slookup (dijkstraLoop g bl gi t (dijkstraFuel g)
        { dist := [(s, 0)], prev := [(s, none)], pq := [(0, s)] }).prev t with
    | none => rfl
    | some p =>
      have h2 := (core.domIff t).mpr (by rw [hp]; rfl)
      rw [hdist] at h2
      simp at h2
  unfold dijkstraPath
  rw [if_pos ⟨hprev, hts⟩]

theorem dijkstraPath_self {g : Graph} {bl : Finset (ℕ × ℕ × ℕ)} {gi s : ℕ}
    (hWF : GraphWF g) (hNN : NonnegWeights g) :
    dijkstraPath g bl gi s s = [s] := by
  obtain ⟨S', core, -⟩ := dijkstraLoop_spec hWF hNN (dijkstraFuel g) ∅
    { dist := [(s, 0)], prev := [(s, none)], pq := [(0, s)] }
    (dfull_init g bl gi s s) (dijkstra_measure_init hWF s)
  have hsp := core.startPrev
  unfold dijkstraPath
  rw [if_neg (by rintro ⟨-, h⟩; exact h rfl)]
  have hne : (dijkstraLoop g bl gi s (dijkstraFuel g)
      { dist := [(s, 0)], prev := [(s, none)], pq := [(0, s)] }).prev ≠ [] := by
    intro he
    rw [he] at hsp
    cases hsp
  cases hl : (dijkstraLoop g bl gi s (dijkstraFuel g)
      { dist := [(s, 0)], prev := [(s, none)], pq := [(0, s)] }).prev.length with
  | zero => exact absurd (List.length_eq_zero.mp hl) hne
  | succ m =>
    simp only [reconstruct]
    rw [hsp]
    rfl

theorem isWalk_last_edge {g : Graph} {bl : Finset (ℕ × ℕ × ℕ)} {gi s t : ℕ} :
    ∀ {l : List ℕ} {c : ℚ}, IsWalk g bl gi s t l c →
      t = s ∨ ∃ u w, edgeWeight g bl gi u t = some w := by
  intro l
  induction l generalizing s with
  | nil =>
    intro c h
    cases h.1
  | cons a tl ih =>
    intro c h
    obtain ⟨hh, hl, hc⟩ := h
    have has : a = s := by injection hh
    subst has
    cases tl with
    | nil =>
      left
      have : a = t := by simpa using hl
      rw [this]
    | cons b tl2 =>
      obtain ⟨w, c1, hw, hc1, -⟩ := walkCost_cons_cons hc
      have hl2 : (b :: tl2).getLast? = some t := by
        rw [List.getLast?_cons_cons] at hl
        exact hl
      rcases ih ⟨rfl, hl2, hc1⟩ with he | hex
      · right
        exact ⟨a, w, by rw [← he] at hw; exact hw⟩
      · right
        exact hex

theorem gC1_no_into_4 : ∀ u w, edgeWeight gC1 ∅ 0 u 4 = some w → False := by
  intro u w h
  obtain ⟨st, hst, hconn, -⟩ := edgeWeight_spec h
  have hmem := slookup_eq_some_mem hst
  have hc := slookup_eq_some_mem hconn
  simp only [gC1, mkStar, List.mem_cons, List.not_mem_nil, or_false,
    Prod.mk.injEq] at hmem
  rcases hmem with ⟨-, hs⟩ | ⟨-, hs⟩ | ⟨-, hs⟩
  all_goals rw [hs] at hc
  all_goals simp at hc

theorem gC1_unreach4 : ¬∃ c, Reach gC1 ∅ 0 1 4 c := by
  rintro ⟨c, l, hw⟩
  rcases isWalk_last_edge hw with he | ⟨u, w, he⟩
  · exact absurd he (by decide)
  · exact gC1_no_into_4 u w he

/-- C1: for a well-formed adjacency structure with nonnegative weights, if
`t` is reachable from `s` over the present, non-blocked edges, the route
returned by `_dijkstra_path` starts at `s`, ends at `t`, traverses only
present non-blocked edges (`IsWalk` demands a defined cost), and its total
weight is minimal among all such routes — the true shortest-path distance. -/
theorem c1_dijkstra_min_cost (g : Graph) (bl : Finset (ℕ × ℕ × ℕ)) (gi s t : ℕ)
    (hWF : GraphWF g) (hNN : NonnegWeights g)
    (hreach : ∃ c, Reach g bl gi s t c) :
    ∃ c, IsWalk g bl gi s t (dijkstraPath g bl gi s t) c ∧
      ∀ l c', IsWalk g bl gi s t l c' → c ≤ c' :=
  dijkstraPath_correct hWF hNN hreach

theorem c1_dijkstra_min_cost_witness :
    (GraphWF gC1 ∧ NonnegWeights gC1 ∧ (∃ c, Reach gC1 ∅ 0 1 3 c)) ∧
    ∃ c, IsWalk gC1 ∅ 0 1 3 (dijkstraPath gC1 ∅ 0 1 3) c ∧
      ∀ l c', IsWalk gC1 ∅ 0 1 3 l c' → c ≤ c' := by
  have hWF : GraphWF gC1 := by
    constructor
    · decide
    · intro p hp
      fin_cases hp <;> decide
  have hNN : NonnegWeights gC1 := by
    intro p hp
    fin_cases hp <;> intro q hq <;> fin_cases hq <;> with_unfolding_all decide
  have hreach : ∃ c, Reach gC1 ∅ 0 1 3 c :=
    ⟨10, [1, 2, 3], by refine ⟨rfl, rfl, ?_⟩; with_unfolding_all decide⟩
  exact ⟨⟨hWF, hNN, hreach⟩, c1_dijkstra_min_cost gC1 ∅ 0 1 3 hWF hNN hreach⟩

/-- C9: for a well-formed adjacency structure with nonnegative weights,
`_dijkstra_path` returns the empty route when the target is unreachable
from the start over the non-blocked edges, and the single-node route `[s]`
when the target equals the start. -/
theorem c9_dijkstra_unreachable_and_self (g : Graph) (bl : Finset (ℕ × ℕ × ℕ))
    (gi s t : ℕ) (hWF : GraphWF g) (hNN : NonnegWeights g) :
    ((¬∃ c, Reach g bl gi s t c) → dijkstraPath g bl gi s t = []) ∧
    dijkstraPath g bl gi s s = [s] :=
  ⟨fun h => dijkstraPath_unreachable hWF hNN h, dijkstraPath_self hWF hNN⟩

theorem c9_dijkstra_unreachable_and_self_witness :
    (GraphWF gC1 ∧ NonnegWeights gC1) ∧
    dijkstraPath gC1 ∅ 0 1 4 = [] ∧ dijkstraPath gC1 ∅ 0 1 1 = [1] := by
  have hWF : GraphWF gC1 := by
    constructor
    · decide
    · intro p hp
      fin_cases hp <;> decide
  have hNN : NonnegWeights gC1 := by
    intro p hp
    fin_cases hp <;> intro q hq <;> fin_cases hq <;> with_unfolding_all decide
  refine ⟨⟨hWF, hNN⟩, ?_, ?_⟩
  · exact (c9_dijkstra_unreachable_and_self gC1 ∅ 0 1 4 hWF hNN).1 gC1_unreach4
  · exact (c9_dijkstra_unreachable_and_self gC1 ∅ 0 1 4 hWF hNN).2

theorem insertByW_perm (x : ℕ × ℚ) :
    ∀ l : List (ℕ × ℚ), (insertByW x l).Perm (x :: l)
  | [] => List.Perm.refl _
  | y :: ys => by
    unfold insertByW
    by_cases h : y.2 ≤ x.2
    · rw [if_pos h]
      exact ((insertByW_perm x ys).cons y).trans (List.Perm.swap x y ys)
    · rw [if_neg h]

theorem sortByW_perm : ∀ l : List (ℕ × ℚ), (sortByW l).Perm l
  | [] => List.Perm.refl _
  | x :: xs => (insertByW_perm x (sortByW xs)).trans ((sortByW_perm xs).cons x)

theorem slookup_foldl_sset {β κ α : Type} [BEq κ] [LawfulBEq κ]
    (f : β → κ) (val : β → List (κ × α) → α) :
    ∀ (l : List β) (init : List (κ × α)) (k : κ) (v : α),
      slookup (l.foldl (fun acc b => sset acc (f b) (val b acc)) init) k = some v →
      (∃ b ∈ l, f b = k ∧ ∃ acc0, v = val b acc0) ∨ slookup init k = some v := by
  intro l
  induction l with
  | nil =>
    intro init k v h
    exact Or.inr h
  | cons b bs ih =>
    intro init k v h
    rw [List.foldl_cons] at h
    rcases ih _ k v h with ⟨b2, hb2, hk, hv⟩ | h2
    · exact Or.inl ⟨b2, List.mem_cons_of_mem _ hb2, hk, hv⟩
    · by_cases hbk : f b = k
      · rw [hbk, slookup_sset_self] at h2
        exact Or.inl ⟨b, List.mem_cons_self _ _, hbk,
          init, (Option.some.inj h2).symm⟩
      · rw [slookup_sset_ne _ _ _ _ (fun hh => hbk hh.symm)] at h2
        exact Or.inr h2

theorem buildAdjV2_ok {g : Graph} {bl : Finset (ℕ × ℕ × ℕ)} {gi : ℕ}
    (hWF : GraphWF g) (hIds : IdsConsistent g) :
    ∀ a l, slookup (buildAdjV2 g bl gi) a = some l →
      ∀ vw ∈ l, edgeWeight g bl gi a vw.1 = some vw.2 := by
  intro a l h vw hvw
  unfold buildAdjV2 at h
  rcases slookup_foldl_sset (fun s : Star => s.id)
      (fun s _ => sortByW (s.connections.filter
        (fun q => ! edgeBlocked bl gi s.id q.1)))
      g.getAllStars [] a l h with ⟨st, hst, hid, -, hl⟩ | h2
  · rw [hl] at hvw
    have hvw2 := (sortByW_perm _).mem_iff.mp hvw
    rw [List.mem_filter] at hvw2
    obtain ⟨hmemc, hnb⟩ := hvw2
    obtain ⟨p, hp, hp2⟩ := List.mem_map.mp hst
    have hpa : p.1 = a := by
      rw [← hIds p hp, hp2]
      exact hid
    have hmem : (a, st) ∈ g.vertices := by
      rw [← hpa, ← hp2, Prod.mk.eta]
      exact hp
    have hstar : g.getStar a = some st := slookup_of_mem_nodup hWF.1 hmem
    have hconn : slookup st.connections vw.1 = some vw.2 := by
      apply slookup_of_mem_nodup (hWF.2 (a, st) hmem)
      rw [Prod.mk.eta]
      exact hmemc
    have hbf : edgeBlocked bl gi a vw.1 = false := by
      rw [Bool.not_eq_true'] at hnb
      rw [← hid]
      exact hnb
    exact edgeWeight_of_parts hstar hconn hbf
  · simp [slookup] at h2

set_option maxHeartbeats 1000000 in
theorem buildAdjV1_ok {g : Graph} {bl : Finset (ℕ × ℕ × ℕ)} {gi : ℕ}
    (hWF : GraphWF g) (hIds : IdsConsistent g) :
    ∀ a l, slookup (buildAdjV1 g bl gi) a = some l →
      ∀ vw ∈ l, edgeWeight g bl gi a vw.1 = some vw.2 := by
  intro a l h vw hvw
  unfold buildAdjV1 at h
  rcases slookup_foldl_sset (fun s : Star => s.id)
      (fun s _ => s.connections.filter (fun q => ! edgeBlocked bl gi s.id q.1))
      g.getAllStars [] a l h with ⟨st, hst, hid, -, hl⟩ | h2
  · rw [hl] at hvw
    rw [List.mem_filter] at hvw
    obtain ⟨hmemc, hnb⟩ := hvw
    obtain ⟨p, hp, hp2⟩ := List.mem_map.mp hst
    have hpa : p.1 = a := by
      rw [← hIds p hp, hp2]
      exact hid
    have hmem : (a, st) ∈ g.vertices := by
      rw [← hpa, ← hp2, Prod.mk.eta]
      exact hp
    have hstar : g.getStar a = some st := slookup_of_mem_nodup hWF.1 hmem
    have hconn : slookup st.connections vw.1 = some vw.2 := by
      apply slookup_of_mem_nodup (hWF.2 (a, st) hmem)
      rw [Prod.mk.eta]
      exact hmemc
    have hbf : edgeBlocked bl gi a vw.1 = false := by
      rw [Bool.not_eq_true'] at hnb
      rw [← hid]
      exact hnb
    exact edgeWeight_of_parts hstar hconn hbf
  · simp [slookup] at h2

theorem testBit_shiftLeft_self (i : ℕ) : (1 <<< i).testBit i = true := by
  rw [Nat.shiftLeft_eq, one_mul]
  exact Nat.testBit_two_pow_self

theorem v2Dfs_sound {g : Graph} {bl : Finset (ℕ × ℕ × ℕ)} {gi s tId : ℕ}
    {budget : ℚ} {adj : List (ℕ × List (ℕ × ℚ))} {idx : List (ℕ × ℕ)} {n : ℕ}
    (hadj : ∀ a l, slookup adj a = some l →
      ∀ vw ∈ l, edgeWeight g bl gi a vw.1 = some vw.2) :
    ∀ (fuel node : ℕ) (remaining : ℚ) (mask : ℕ) (path : List ℕ)
      (distAcc : ℚ) (ms : MSState),
      path.head? = some s → path.getLast? = some node → path.Nodup →
      walkCost g bl gi path = some distAcc →
      distAcc + remaining = budget → 0 ≤ remaining →
      (∀ x ∈ path, ∃ i, slookup idx x = some i ∧ mask.testBit i) →
      MSOk g bl gi s tId budget ms →
      MSOk g bl gi s tId budget
        (v2Dfs n tId adj idx fuel node remaining mask path distAcc ms) := by
  intro fuel
  induction fuel with
  | zero =>
    intro node remaining mask path distAcc ms _ _ _ _ _ _ _ hms
    exact hms
  | succ fuel ih =>
    intro node remaining mask path distAcc ms hhead hlast hnd hcost hbud hrem hmask hms
    simp only [v2Dfs]
    by_cases hnt : node = tId
    · rw [if_pos hnt]
      by_cases hbetter : ((path.length : ℤ) > ms.bestCount ∨
          ((path.length : ℤ) = ms.bestCount ∧ distLt distAcc ms.bestDist))
      · rw [if_pos hbetter]
        rintro -
        refine ⟨hhead, ?_, hnd, distAcc, hcost, ?_⟩
        · rw [← hnt]
          exact hlast
        · linarith
      · rw [if_neg hbetter]
        exact hms
    · rw [if_neg hnt]
      by_cases hcut : ((path.length : ℤ) + ((n : ℤ) - (path.length : ℤ)) < ms.bestCount)
      · rw [if_pos hcut]
        exact hms
      · rw [if_neg hcut]
        by_cases hprune : (match slookup ms.memo (node, mask, truncQ (remaining * 100)) with
            | some prevBest =>
              decide ((path.length : ℤ) + ((n : ℤ) - (path.length : ℤ)) ≤ prevBest)
            | none => false) = true
        · rw [if_pos hprune]
          exact hms
        · rw [if_neg hprune]
          have hL : ∀ vw ∈ getAdj adj node, edgeWeight g bl gi node vw.1 = some vw.2 := by
            intro vw hvw
            unfold getAdj at hvw
            cases hA : slookup adj node with
            | none =>
              rw [hA] at hvw
              cases hvw
            | some L0 =>
              rw [hA] at hvw
              exact hadj node L0 hA vw hvw
          have hfold : ∀ (L : List (ℕ × ℚ)),
              (∀ vw ∈ L, edgeWeight g bl gi node vw.1 = some vw.2) →
              ∀ acc, MSOk g bl gi s tId budget acc →
              MSOk g bl gi s tId budget
                (L.foldl
                  (fun acc vw =>
                    if remaining < vw.2 then acc
                    else
                      match slookup idx vw.1 with
                      | none => acc
                      | some i =>
                        if mask &&& (1 <<< i) ≠ 0 then acc
                        else
                          v2Dfs n tId adj idx fuel vw.1 (remaining - vw.2)
                            (mask ||| (1 <<< i)) (path ++ [vw.1])
                            (distAcc + vw.2) acc) acc) := by
            intro L
            induction L with
            | nil =>
              intro _ acc hacc
              exact hacc
            | cons vw L ihL =>
              intro hLm acc hacc
              rw [List.foldl_cons]
              apply ihL (fun x hx => hLm x (List.mem_cons_of_mem _ hx))
              by_cases hw : remaining < vw.2
              · rw [if_pos hw]
                exact hacc
              · rw [if_neg hw]
                cases hix : slookup idx vw.1 with
                | none => exact hacc
                | some i =>
                  dsimp only
                  by_cases hbit : mask &&& (1 <<< i) ≠ 0
                  · rw [if_pos hbit]
                    exact hacc
                  · rw [if_neg hbit]
                    have hedge : edgeWeight g bl gi node vw.1 = some vw.2 :=
                      hLm vw (List.mem_cons_self _ _)
                    have hnotin : vw.1 ∉ path := by
                      intro hin
                      obtain ⟨i2, hi2, hb2⟩ := hmask vw.1 hin
                      rw [hix] at hi2
                      have hieq : i = i2 := Option.some.inj hi2
                      have hb0 : mask &&& (1 <<< i) = 0 := by
                        by_contra hne
                        exact hbit hne
                      have hf : (mask &&& (1 <<< i)).testBit i = false := by
                        rw [hb0]
                        exact Nat.zero_testBit i
                      rw [Nat.testBit_and, testBit_shiftLeft_self,
                        Bool.and_true] at hf
                      rw [← hieq] at hb2
                      rw [hb2] at hf
                      cases hf
                    apply ih vw.1 (remaining - vw.2) (mask ||| (1 <<< i))
                      (path ++ [vw.1]) (distAcc + vw.2) acc
                    · cases path with
                      | nil => cases hhead
                      | cons a tl => simpa using hhead
                    · exact List.getLast?_concat _
                    · rw [List.nodup_append]
                      refine ⟨hnd, List.nodup_singleton _, ?_⟩
                      intro x hx hx2
                      rw [List.mem_singleton] at hx2
                      rw [hx2] at hx
                      exact hnotin hx
                    · exact walkCost_append_single hlast hcost hedge
                    · linarith
                    · linarith
                    · intro x hx
                      rcases List.mem_append.mp hx with hx1 | hx2
                      · obtain ⟨i2, hi2, hb2⟩ := hmask x hx1
                        refine ⟨i2, hi2, ?_⟩
                        rw [Nat.testBit_or, hb2]
                        rfl
                      · rw [List.mem_singleton] at hx2
                        subst hx2
                        refine ⟨i, hix, ?_⟩
                        rw [Nat.testBit_or, testBit_shiftLeft_self]
                        simp
                    · exact hacc
          apply hfold (getAdj adj node) hL
          intro hbp
          exact hms hbp

theorem v1Dfs_sound {g : Graph} {bl : Finset (ℕ × ℕ × ℕ)} {gi s tId : ℕ}
    {budget : ℚ} {adj : List (ℕ × List (ℕ × ℚ))} {idx : List (ℕ × ℕ)} {n : ℕ}
    (hadj : ∀ a l, slookup adj a = some l →
      ∀ vw ∈ l, edgeWeight g bl gi a vw.1 = some vw.2) :
    ∀ (fuel node : ℕ) (remaining : ℚ) (mask : ℕ) (path : List ℕ)
      (distAcc : ℚ) (ms : MSState),
      path.head? = some s → path.getLast? = some node → path.Nodup →
      walkCost g bl gi path = some distAcc →
      distAcc + remaining = budget → 0 ≤ remaining →
      (∀ x ∈ path, ∃ i, slookup idx x = some i ∧ mask.testBit i) →
      MSOk g bl gi s tId budget ms →
      MSOk g bl gi s tId budget
        (v1Dfs n tId adj idx fuel node remaining mask path distAcc ms) := by
  intro fuel
  induction fuel with
  | zero =>
    intro node remaining mask path distAcc ms _ _ _ _ _ _ _ hms
    exact hms
  | succ fuel ih =>
    intro node remaining mask path distAcc ms hhead hlast hnd hcost hbud hrem hmask hms
    simp only [v1Dfs]
    by_cases hnt : node = tId
    · rw [if_pos hnt]
      by_cases hbetter : (((popCount mask : ℤ) > ms.bestCount ∨
          ((popCount mask : ℤ) = ms.bestCount ∧ distLt distAcc ms.bestDist)))
      · rw [if_pos hbetter]
        rintro -
        refine ⟨hhead, ?_, hnd, distAcc, hcost, ?_⟩
        · rw [← hnt]
          exact hlast
        · linarith
      · rw [if_neg hbetter]
        exact hms
    · rw [if_neg hnt]
      by_cases hcut : ((popCount mask : ℤ) + ((n : ℤ) - (popCount mask : ℤ)) < ms.bestCount)
      · rw [if_pos hcut]
        exact hms
      · rw [if_neg hcut]
        have hL : ∀ vw ∈ getAdj adj node, edgeWeight g bl gi node vw.1 = some vw.2 := by
          intro vw hvw
          unfold getAdj at hvw
          cases hA : slookup adj node with
          | none =>
            rw [hA] at hvw
            cases hvw
          | some L0 =>
            rw [hA] at hvw
            exact hadj node L0 hA vw hvw
        have hfold : ∀ (L : List (ℕ × ℚ)),
            (∀ vw ∈ L, edgeWeight g bl gi node vw.1 = some vw.2) →
            ∀ acc, MSOk g bl gi s tId budget acc →
            MSOk g bl gi s tId budget
              (L.foldl
                (fun acc vw =>
                  match slookup idx vw.1 with
                  | none => acc
                  | some i =>
                    if mask &&& (1 <<< i) ≠ 0 then acc
                    else if remaining < vw.2 then acc
                    else
                      v1Dfs n tId adj idx fuel vw.1 (remaining - vw.2)
                        (mask ||| (1 <<< i)) (path ++ [vw.1])
                        (distAcc + vw.2) acc) acc) := by
          intro L
          induction L with
          | nil =>
            intro _ acc hacc
            exact hacc
          | cons vw L ihL =>
            intro hLm acc hacc
            rw [List.foldl_cons]
            apply ihL (fun x hx => hLm x (List.mem_cons_of_mem _ hx))
            cases hix : slookup idx vw.1 with
            | none => exact hacc
            | some i =>
              dsimp only
              by_cases hbit : mask &&& (1 <<< i) ≠ 0
              · rw [if_pos hbit]
                exact hacc
              · rw [if_neg hbit]
                by_cases hw : remaining < vw.2
                · rw [if_pos hw]
                  exact hacc
                · rw [if_neg hw]
                  have hedge : edgeWeight g bl gi node vw.1 = some vw.2 :=
                    hLm vw (List.mem_cons_self _ _)
                  have hnotin : vw.1 ∉ path := by
                    intro hin
                    obtain ⟨i2, hi2, hb2⟩ := hmask vw.1 hin
                    rw [hix] at hi2
                    have hieq : i = i2 := Option.some.inj hi2
                    have hb0 : mask &&& (1 <<< i) = 0 := by
                      by_contra hne
                      exact hbit hne
                    have hf : (mask &&& (1 <<< i)).testBit i = false := by
                      rw [hb0]
                      exact Nat.zero_testBit i
                    rw [Nat.testBit_and, testBit_shiftLeft_self,
                      Bool.and_true] at hf
                    rw [← hieq] at hb2
                    rw [hb2] at hf
                    cases hf
                  apply ih vw.1 (remaining - vw.2) (mask ||| (1 <<< i))
                    (path ++ [vw.1]) (distAcc + vw.2) acc
                  · cases path with
                    | nil => cases hhead
                    | cons a tl => simpa using hhead
                  · exact List.getLast?_concat _
                  · rw [List.nodup_append]
                    refine ⟨hnd, List.nodup_singleton _, ?_⟩
                    intro x hx hx2
                    rw [List.mem_singleton] at hx2
                    rw [hx2] at hx
                    exact hnotin hx
                  · exact walkCost_append_single hlast hcost hedge
                  · linarith
                  · linarith
                  · intro x hx
                    rcases List.mem_append.mp hx with hx1 | hx2
                    · obtain ⟨i2, hi2, hb2⟩ := hmask x hx1
                      refine ⟨i2, hi2, ?_⟩
                      rw [Nat.testBit_or, hb2]
                      rfl
                    · rw [List.mem_singleton] at hx2
                      subst hx2
                      refine ⟨i, hix, ?_⟩
                      rw [Nat.testBit_or, testBit_shiftLeft_self]
                      simp
                  · exact hacc
        exact hfold (getAdj adj node) hL ms hms

theorem maxStarsPath_sound {g : Graph} {bl : Finset (ℕ × ℕ × ℕ)} {gi s t : ℕ}
    {budget : ℚ} {r : List ℕ}
    (hWF : GraphWF g) (hIds : IdsConsistent g) (hb : 0 ≤ budget)
    (h : maxStarsPath g bl gi s t budget = some r) (hne : r ≠ []) :
    SimplePathOk g bl gi s t budget r := by
  unfold maxStarsPath at h
  by_cases hst : s = t
  · rw [if_pos hst] at h
    have hr : r = [s] := (Option.some.inj h).symm
    subst hr
    exact ⟨rfl, by simp [hst], List.nodup_singleton _, 0, rfl, hb⟩
  · rw [if_neg hst] at h
    dsimp only at h
    cases hix : slookup (buildIdx (g.getAllStars.map (·.id))) s with
    | none =>
      rw [hix] at h
      cases h
    | some i0 =>
      rw [hix] at h
      dsimp only at h
      have h2 := Option.some.inj h
      have hsound : MSOk g bl gi s t budget
          (v1Dfs g.getAllStars.length t (buildAdjV1 g bl gi)
            (buildIdx (g.getAllStars.map (·.id))) (g.getAllStars.length + 1) s
            budget (1 <<< i0) [s] 0
            { bestPath := [], bestCount := -1, bestDist := none, memo := [] }) :=
        v1Dfs_sound (buildAdjV1_ok hWF hIds) _ _ _ _ _ _ _ rfl rfl
          (List.nodup_singleton s) rfl (zero_add budget) hb
          (by
            intro x hx
            rw [List.mem_singleton] at hx
            subst hx
            exact ⟨i0, hix, testBit_shiftLeft_self i0⟩)
          (fun habs => absurd rfl habs)
      have h3 := hsound (by rw [h2]; exact hne)
      rw [h2] at h3
      exact h3

theorem maxStarsPathV2_sound {g : Graph} {bl : Finset (ℕ × ℕ × ℕ)} {gi s t : ℕ}
    {budget : ℚ} {r : List ℕ}
    (hWF : GraphWF g) (hIds : IdsConsistent g) (hb : 0 ≤ budget)
    (h : maxStarsPathV2 g bl gi s t budget = some r) (hne : r ≠ []) :
    r = dijkstraPath g bl gi s t ∨ SimplePathOk g bl gi s t budget r := by
  unfold maxStarsPathV2 at h
  by_cases hst : s = t
  · rw [if_pos hst] at h
    right
    have hr : r = [s] := (Option.some.inj h).symm
    subst hr
    exact ⟨rfl, by simp [hst], List.nodup_singleton _, 0, rfl, hb⟩
  · rw [if_neg hst] at h
    dsimp only at h
    by_cases hemp : g.getAllStars = []
    · rw [if_pos hemp] at h
      exact absurd (Option.some.inj h).symm hne
    · rw [if_neg hemp] at h
      by_cases hbig : 26 < g.getAllStars.length
      · rw [if_pos hbig] at h
        right
        exact maxStarsPath_sound hWF hIds hb h hne
      · rw [if_neg hbig] at h
        cases hix : slookup (buildIdx (g.getAllStars.map (·.id))) s with
        | none =>
          rw [hix] at h
          cases h
        | some i0 =>
          rw [hix] at h
          dsimp only at h
          have hsound : MSOk g bl gi s t budget
              (v2Dfs g.getAllStars.length t (buildAdjV2 g bl gi)
                (buildIdx (g.getAllStars.map (·.id))) (g.getAllStars.length + 1) s
                budget (1 <<< i0) [s] 0
                { bestPath := [], bestCount := -1, bestDist := none, memo := [] }) :=
            v2Dfs_sound (buildAdjV2_ok hWF hIds) _ _ _ _ _ _ _ rfl rfl
              (List.nodup_singleton s) rfl (zero_add budget) hb
              (by
                intro x hx
                rw [List.mem_singleton] at hx
                subst hx
                exact ⟨i0, hix, testBit_shiftLeft_self i0⟩)
              (fun habs => absurd rfl habs)
          split at h
          · left
            exact (Option.some.inj h).symm
          · right
            have h2 := Option.some.inj h
            have h3 := hsound (by rw [h2]; exact hne)
            rw [h2] at h3
            exact h3

theorem buildIdxAux_mem : ∀ (l : List ℕ) (i0 : ℕ) (acc : List (ℕ × ℕ)) (k : ℕ),
    (k ∈ l ∨ ∃ j, slookup acc k = some j) →
    ∃ j, slookup (buildIdxAux l i0 acc) k = some j := by
  intro l
  induction l with
  | nil =>
    intro i0 acc k h
    rcases h with h | h
    · cases h
    · exact h
  | cons sid rest ih =>
    intro i0 acc k h
    unfold buildIdxAux
    apply ih
    by_cases hk : k = sid
    · right
      subst hk
      exact ⟨i0, slookup_sset_self _ _ _⟩
    · rcases h with h | h
      · rcases List.mem_cons.mp h with he | hm
        · exact absurd he hk
        · exact Or.inl hm
      · right
        rw [slookup_sset_ne _ _ _ _ hk]
        exact h

theorem reach_start_star {g : Graph} {bl : Finset (ℕ × ℕ × ℕ)} {gi s t : ℕ}
    {c : ℚ} (hst : s ≠ t) (hr : Reach g bl gi s t c) :
    ∃ st0, g.getStar s = some st0 := by
  obtain ⟨l, hh, hl, hc⟩ := hr
  cases l with
  | nil => cases hh
  | cons a tl =>
    have has : a = s := by injection hh
    subst has
    cases tl with
    | nil =>
      have h2 : a = t := by simpa using hl
      exact absurd h2 hst
    | cons b tl2 =>
      obtain ⟨w, c1, hw, -, -⟩ := walkCost_cons_cons hc
      obtain ⟨st0, hst0, -, -⟩ := edgeWeight_spec hw
      exact ⟨st0, hst0⟩

theorem getStar_mem_ids {g : Graph} {s : ℕ} {st0 : Star}
    (hIds : IdsConsistent g) (h : g.getStar s = some st0) :
    s ∈ g.getAllStars.map (·.id) := by
  have hmem : (s, st0) ∈ g.vertices := slookup_eq_some_mem h
  have hid : st0.id = s := hIds (s, st0) hmem
  unfold Graph.getAllStars
  rw [List.map_map]
  exact List.mem_map.mpr ⟨(s, st0), hmem, by simpa using hid⟩

/-- C2 (amended): a route returned by `_max_stars_path_v2` that is not the
Dijkstra fallback is a simple (no repeated node) path from `s` to `t` over
present non-blocked edges whose total weight is within the budget; and the
spec's 3-node line scenario (weights 5 and 5, budget 12) yields [A, B, C].
The original claim's maximality and minimal-tie-break guarantees do not hold
(see the counterexample): the memo key rounds the remaining budget to
hundredths, so two different prefixes can collide and prune a feasible
higher-coverage branch. -/
theorem c2_amended_max_stars (g : Graph) (bl : Finset (ℕ × ℕ × ℕ)) (gi s t : ℕ)
    (budget : ℚ) (r : List ℕ)
    (hWF : GraphWF g) (hIds : IdsConsistent g) (hb : 0 ≤ budget)
    (h : maxStarsPathV2 g bl gi s t budget = some r) (hne : r ≠ [])
    (hfb : r ≠ dijkstraPath g bl gi s t) :
    SimplePathOk g bl gi s t budget r ∧
    maxStarsPathV2 gC2 ∅ 0 1 3 12 = some [1, 2, 3] := by
  constructor
  · rcases maxStarsPathV2_sound hWF hIds hb h hne with hd | hok
    · exact absurd hd hfb
    · exact hok
  · with_unfolding_all decide

theorem c2_amended_max_stars_witness :
    (GraphWF gC2w ∧ IdsConsistent gC2w ∧ (0 : ℚ) ≤ 12 ∧
      maxStarsPathV2 gC2w ∅ 0 1 3 12 = some [1, 2, 3] ∧
      ([1, 2, 3] : List ℕ) ≠ [] ∧
      ([1, 2, 3] : List ℕ) ≠ dijkstraPath gC2w ∅ 0 1 3) ∧
    SimplePathOk gC2w ∅ 0 1 3 12 [1, 2, 3] ∧
    maxStarsPathV2 gC2 ∅ 0 1 3 12 = some [1, 2, 3] := by
  have hWF : GraphWF gC2w := by
    constructor
    · decide
    · intro p hp
      fin_cases hp <;> decide
  have hIds : IdsConsistent gC2w := by
    intro p hp
    fin_cases hp <;> decide
  have hb : (0 : ℚ) ≤ 12 := by with_unfolding_all decide
  have hv2 : maxStarsPathV2 gC2w ∅ 0 1 3 12 = some [1, 2, 3] := by
    with_unfolding_all decide
  have hne : ([1, 2, 3] : List ℕ) ≠ [] := by decide
  have hfb : ([1, 2, 3] : List ℕ) ≠ dijkstraPath gC2w ∅ 0 1 3 := by
    with_unfolding_all decide
  exact ⟨⟨hWF, hIds, hb, hv2, hne, hfb⟩,
    c2_amended_max_stars gC2w ∅ 0 1 3 12 [1, 2, 3] hWF hIds hb hv2 hne hfb⟩

set_option maxRecDepth 4000 in
/-- C2 counterexample: on `gC2x` with budget 5013/1250 = 4.0104 the v2
planner returns [1, 2, 4, 5] (4 nodes), yet [1, 3, 2, 4, 5] is a simple
non-blocked 1-to-5 path of total weight 501/125 = 4.008 ≤ 4.0104 visiting 5
nodes: the returned route does not maximize the count of distinct nodes. The
losing branch is pruned because `int(remaining*100)` collides for two
prefixes reaching node 3 with the same visited set. -/
theorem c2_counterexample :
    maxStarsPathV2 gC2x ∅ 0 1 5 (5013 / 1250) = some [1, 2, 4, 5] ∧
    SimplePathOk gC2x ∅ 0 1 5 (5013 / 1250) [1, 3, 2, 4, 5] ∧
    ([1, 2, 4, 5] : List ℕ).length < ([1, 3, 2, 4, 5] : List ℕ).length := by
  refine ⟨by with_unfolding_all decide, ⟨rfl, rfl, by decide, 501 / 125, ?_, ?_⟩,
    by decide⟩
  · with_unfolding_all decide
  · with_unfolding_all decide

/-- C3: with the max-stars objective, whenever some non-blocked route from
`s` to `t` exists the planner produces a route: it is either a simple
within-budget path found by the search, or exactly the `_dijkstra_path`
result (the fallback, even when that exceeds the budget), and it is never
empty. -/
theorem c3_fallback_nonempty (g : Graph) (bl : Finset (ℕ × ℕ × ℕ)) (gi s t : ℕ)
    (mp : MissionParams) (budget : ℚ)
    (hWF : GraphWF g) (hIds : IdsConsistent g) (hNN : NonnegWeights g)
    (hb : 0 ≤ budget) (hobj : mp.routeObjective = "max_stars")
    (hreach : ∃ c, Reach g bl gi s t c) :
    ∃ r, computeRoute g bl gi s t mp budget = some r ∧ r ≠ [] ∧
      (SimplePathOk g bl gi s t budget r ∨ r = dijkstraPath g bl gi s t) := by
  have hdij : dijkstraPath g bl gi s t ≠ [] := by
    obtain ⟨c0, hwalk, -⟩ := dijkstraPath_correct hWF hNN hreach
    intro he
    rw [he] at hwalk
    cases hwalk.1
  have hv2 : ∃ p, maxStarsPathV2 g bl gi s t budget = some p := by
    unfold maxStarsPathV2
    by_cases hst : s = t
    · rw [if_pos hst]
      exact ⟨[s], rfl⟩
    · rw [if_neg hst]
      dsimp only
      obtain ⟨c0, hr0⟩ := hreach
      obtain ⟨st0, hst0⟩ := reach_start_star hst hr0
      have hmemids : s ∈ g.getAllStars.map (·.id) := getStar_mem_ids hIds hst0
      have hemp : g.getAllStars ≠ [] := by
        intro he
        rw [he] at hmemids
        cases hmemids
      rw [if_neg hemp]
      obtain ⟨i0, hi0⟩ :=
        buildIdxAux_mem (g.getAllStars.map (·.id)) 0 [] s (Or.inl hmemids)
      have hi0b : slookup (buildIdx (g.getAllStars.map (·.id))) s = some i0 := hi0
      by_cases hbig : 26 < g.getAllStars.length
      · rw [if_pos hbig]
        unfold maxStarsPath
        rw [if_neg hst]
        dsimp only
        rw [hi0b]
        exact ⟨_, rfl⟩
      · rw [if_neg hbig]
        rw [hi0b]
        dsimp only
        exact ⟨_, (apply_ite some _ _ _).symm⟩
  obtain ⟨p, hp⟩ := hv2
  unfold computeRoute
  rw [hobj, if_neg (by decide), hp]
  dsimp only
  by_cases hpe : p = []
  · rw [if_pos hpe]
    exact ⟨dijkstraPath g bl gi s t, rfl, hdij, Or.inr rfl⟩
  · rw [if_neg hpe]
    refine ⟨p, rfl, hpe, ?_⟩
    rcases maxStarsPathV2_sound hWF hIds hb hp hpe with hd | hs2
    · exact Or.inr hd
    · exact Or.inl hs2

theorem c3_fallback_nonempty_witness :
    (GraphWF gC1 ∧ IdsConsistent gC1 ∧ NonnegWeights gC1 ∧ (0 : ℚ) ≤ 3 ∧
      mpDefault.routeObjective = "max_stars" ∧ (∃ c, Reach gC1 ∅ 0 1 3 c)) ∧
    (∃ r, computeRoute gC1 ∅ 0 1 3 mpDefault 3 = some r ∧ r ≠ [] ∧
      (SimplePathOk gC1 ∅ 0 1 3 3 r ∨ r = dijkstraPath gC1 ∅ 0 1 3)) ∧
    computeRoute gC1 ∅ 0 1 3 mpDefault 3 = some [1, 2, 3] := by
  have hWF : GraphWF gC1 := by
    constructor
    · decide
    · intro p hp
      fin_cases hp <;> decide
  have hIds : IdsConsistent gC1 := by
    intro p hp
    fin_cases hp <;> decide
  have hNN : NonnegWeights gC1 := by
    intro p hp
    fin_cases hp <;> intro q hq <;> fin_cases hq <;> with_unfolding_all decide
  have hb : (0 : ℚ) ≤ 3 := by with_unfolding_all decide
  have hobj : mpDefault.routeObjective = "max_stars" := rfl
  have hreach : ∃ c, Reach gC1 ∅ 0 1 3 c :=
    ⟨10, [1, 2, 3], by refine ⟨rfl, rfl, ?_⟩; with_unfolding_all decide⟩
  refine ⟨⟨hWF, hIds, hNN, hb, hobj, hreach⟩,
    c3_fallback_nonempty gC1 ∅ 0 1 3 mpDefault 3 hWF hIds hNN hb hobj hreach, ?_⟩
  with_unfolding_all decide

/-- C8: toggling the block of edge (a,b) twice restores the registry, and
both the toggle and the blocked query act on the canonical key
`(gi, min a b, max a b)`, hence are insensitive to the order of a and b. -/
theorem c8_toggle_involutive_canonical (bl : Finset (ℕ × ℕ × ℕ)) (gi a b : ℕ) :
    toggleEdgeBlock (toggleEdgeBlock bl gi a b) gi a b = bl ∧
    toggleEdgeBlock bl gi a b = toggleEdgeBlock bl gi b a ∧
    edgeBlocked bl gi a b = edgeBlocked bl gi b a ∧
    (edgeBlocked bl gi a b = true ↔ (gi, min a b, max a b) ∈ bl) := by
  refine ⟨?_, ?_, ?_, ?_⟩
  · unfold toggleEdgeBlock
    by_cases h : (gi, min a b, max a b) ∈ bl
    · simp only [h, if_true]
      have h2 : (gi, min a b, max a b) ∉ bl.erase (gi, min a b, max a b) :=
        Finset.not_mem_erase _ _
      simp only [h2, if_false]
      exact Finset.insert_erase h
    · simp only [h, if_false]
      have h2 : (gi, min a b, max a b) ∈ insert (gi, min a b, max a b) bl :=
        Finset.mem_insert_self _ _
      simp only [h2, if_true]
      exact Finset.erase_insert h
  · unfold toggleEdgeBlock
    rw [min_comm b a, max_comm b a]
  · unfold edgeBlocked
    rcases Nat.lt_trichotomy a b with h | h | h
    · simp [h, Nat.not_lt.mpr (Nat.le_of_lt h)]
    · simp [h]
    · simp [h, Nat.not_lt.mpr (Nat.le_of_lt h)]
  · unfold edgeBlocked
    rcases Nat.lt_trichotomy a b with h | h | h
    · simp [h, Nat.min_def, Nat.max_def, Nat.le_of_lt h, Nat.not_le.mpr h]
    · simp [h, Nat.min_def, Nat.max_def]
    · have hba : ¬ a < b := Nat.not_lt.mpr (Nat.le_of_lt h)
      have hle : b ≤ a := Nat.le_of_lt h
      simp [hba, Nat.min_def, Nat.max_def, hle, Nat.not_le.mpr h]

theorem pymin_eq {α : Type} [LinearOrder α] (a b : α) : pymin a b = min a b := by
  unfold pymin
  by_cases h : a ≤ b
  · rw [if_pos h, min_eq_left h]
  · rw [if_neg h, min_eq_right (le_of_not_le h)]

theorem pymax_eq {α : Type} [LinearOrder α] (a b : α) : pymax a b = max a b := by
  unfold pymax
  by_cases h : b ≤ a
  · rw [if_pos h, max_eq_left h]
  · rw [if_neg h, max_eq_right (le_of_not_le h)]

theorem truncQ_eq_floor {q : ℚ} (h : 0 ≤ q) : truncQ q = ⌊q⌋ := by
  unfold truncQ
  rw [Int.tdiv_eq_ediv (Rat.num_nonneg.mpr h) (by positivity), Rat.floor_def]

theorem truncQ_nonneg {q : ℚ} (h : 0 ≤ q) : 0 ≤ truncQ q := by
  rw [truncQ_eq_floor h]
  exact Int.le_floor.mpr (by exact_mod_cast h)

theorem truncQ_le_self {q : ℚ} (h : 0 ≤ q) : (truncQ q : ℚ) ≤ q := by
  rw [truncQ_eq_floor h]
  exact Int.floor_le q

/-- C4: arrival at a hypergiant applies the bonus before the eat/research
step; the bonus sets energy to `min(max, e + 0.5 e)`, doubles the food
stock, raises the stock maximum to cover it, and that maximum never exceeds
twice the prior maximum. -/
theorem c4_hypergiant_arrival (g : Graph) (mp : MissionParams) (sid : ℕ) (star : Star)
    (b : Burro) (hs : g.getStar sid = some star) (hh : star.hypergiant = true)
    (hp0 : 0 ≤ b.pasto) (hpm : b.pasto ≤ b.pastoMax) :
    processArrival g mp sid b = stayStep star mp (hypergiantBonus b) ∧
    (hypergiantBonus b).energia = min b.energiaMax (b.energia + (1 / 2) * b.energia) ∧
    (hypergiantBonus b).pasto = 2 * b.pasto ∧
    (hypergiantBonus b).pastoMax = max b.pastoMax (2 * b.pasto) ∧
    (hypergiantBonus b).pastoMax ≤ 2 * b.pastoMax := by
  refine ⟨?_, ?_, ?_, ?_, ?_⟩
  · simp [processArrival, hs, hh]
  · simp [hypergiantBonus, pymin_eq]
  · simp only [hypergiantBonus, pymin_eq, pymax_eq]
    omega
  · simp only [hypergiantBonus, pymin_eq, pymax_eq]
    omega
  · simp only [hypergiantBonus, pymin_eq, pymax_eq]
    omega

theorem c4_hypergiant_arrival_witness :
    Graph.getStar gHyper 1 = some starHyper ∧
    processArrival gHyper mpDefault 1 bTen = stayStep starHyper mpDefault (hypergiantBonus bTen) ∧
    (hypergiantBonus bTen).energia = 15 :=
  ⟨by with_unfolding_all decide,
   (c4_hypergiant_arrival gHyper mpDefault 1 starHyper bTen (by with_unfolding_all decide)
      (by with_unfolding_all decide) (by with_unfolding_all decide)
      (by with_unfolding_all decide)).1,
   by with_unfolding_all decide⟩

/-- C5 counterexample: with the default parameters, a star with
`time_to_eat = 1` and a stock of 10 kg, kg_eaten is 2.5, but the resulting
stock is 8, not 10 − 2.5 = 7.5: the source subtracts `int(kg_eaten)`, not
kg_eaten. -/
theorem c5_counterexample :
    min ((bEat.pasto : ℚ))
      (mpDefault.kgPerSecondEat * (starEat.timeToEat * mpDefault.maxEatFraction)) = 5 / 2 ∧
    (processArrival gEat mpDefault 1 bEat).pasto = 8 ∧
    (((processArrival gEat mpDefault 1 bEat).pasto : ℚ)) ≠ (bEat.pasto : ℚ) - 5 / 2 := by
  refine ⟨by with_unfolding_all decide, by with_unfolding_all decide,
    by with_unfolding_all decide⟩

/-- C5 amended: for nodes with `time_to_eat * maxEatFraction ≥ 0` (so that
the source's clamp `max(0, ·)` is the identity), arrival processing computes
eat_time, research_time and kg_eaten as claimed, but subtracts the truncated
`int(kg_eaten)` from the stock; energy gains `(pct/100)*energy_max*kg_eaten`
capped at the max and then loses `researchEnergyPerSecond * research_time`
floored at 0. -/
theorem c5_amended_arrival_formulas (g : Graph) (mp : MissionParams) (sid : ℕ)
    (star : Star) (b : Burro) (hs : g.getStar sid = some star)
    (hfrac : 0 ≤ star.timeToEat * mp.maxEatFraction) :
    processArrival g mp sid b =
      (let b0 := if star.hypergiant then hypergiantBonus b else b
       let eatTime := star.timeToEat * mp.maxEatFraction
       let researchTime := max 0 (star.timeToResearch - eatTime)
       let kgEaten := min (b0.pasto : ℚ) (mp.kgPerSecondEat * eatTime)
       { b0 with
         pasto := b0.pasto - truncQ kgEaten,
         energia := max 0
           (min b0.energiaMax
             (b0.energia + (pctFor mp b0.estadoSalud / 100) * b0.energiaMax * kgEaten) -
            mp.researchEnergyPerSecond * researchTime) }) := by
  simp only [processArrival, hs, stayStep, pymin_eq, pymax_eq, max_eq_right hfrac]

theorem c5_amended_arrival_formulas_witness :
    Graph.getStar gEat 1 = some starEat ∧
    0 ≤ starEat.timeToEat * mpDefault.maxEatFraction ∧
    processArrival gEat mpDefault 1 bEat =
      (let b0 := if starEat.hypergiant then hypergiantBonus bEat else bEat
       let eatTime := starEat.timeToEat * mpDefault.maxEatFraction
       let researchTime := max 0 (starEat.timeToResearch - eatTime)
       let kgEaten := min (b0.pasto : ℚ) (mpDefault.kgPerSecondEat * eatTime)
       { b0 with
         pasto := b0.pasto - truncQ kgEaten,
         energia := max 0
           (min b0.energiaMax
             (b0.energia + (pctFor mpDefault b0.estadoSalud / 100) * b0.energiaMax * kgEaten) -
            mpDefault.researchEnergyPerSecond * researchTime) }) :=
  ⟨by with_unfolding_all decide, by with_unfolding_all decide,
   c5_amended_arrival_formulas gEat mpDefault 1 starEat bEat (by with_unfolding_all decide)
     (by with_unfolding_all decide)⟩

theorem pctFor_nonneg {mp : MissionParams} (hmp : ∀ p ∈ mp.energyPerKgPct, 0 ≤ p.2)
    (salud : String) : 0 ≤ pctFor mp salud := by
  unfold pctFor
  cases h1 : slookup mp.energyPerKgPct salud with
  | some v => exact hmp _ (slookup_eq_some_mem h1)
  | none =>
    cases h2 : slookup mp.energyPerKgPct "Excelente" with
    | some v => exact hmp _ (slookup_eq_some_mem h2)
    | none => norm_num

theorem hypergiantBonus_inv {b : Burro} (hb : BurroInv b) : BurroInv (hypergiantBonus b) := by
  obtain ⟨h1, h2, h3, h4, h5⟩ := hb
  have hm : (0 : ℚ) ≤ b.energiaMax := le_trans h1 h2
  unfold hypergiantBonus BurroInv
  simp only [pymin_eq, pymax_eq]
  refine ⟨?_, ?_, ?_, ?_, h5⟩
  · have : (0 : ℚ) ≤ b.energia + 1 / 2 * b.energia := by linarith
    exact le_min hm this
  · exact min_le_left _ _
  · omega
  · omega

theorem stayStep_inv {star : Star} {mp : MissionParams} {b : Burro}
    (hmp : ParamsOK mp) (hb : BurroInv b) : BurroInv (stayStep star mp b) := by
  obtain ⟨hk, hr, hpct⟩ := hmp
  obtain ⟨h1, h2, h3, h4, h5⟩ := hb
  have hm : (0 : ℚ) ≤ b.energiaMax := le_trans h1 h2
  have heat : (0 : ℚ) ≤ max 0 (star.timeToEat * mp.maxEatFraction) := le_max_left _ _
  have hres : (0 : ℚ) ≤ max 0 (star.timeToResearch - max 0 (star.timeToEat * mp.maxEatFraction)) :=
    le_max_left _ _
  have hmaxkg : (0 : ℚ) ≤ mp.kgPerSecondEat * max 0 (star.timeToEat * mp.maxEatFraction) :=
    mul_nonneg hk heat
  have hkg0 : (0 : ℚ) ≤ min ((b.pasto : ℚ)) (mp.kgPerSecondEat * max 0 (star.timeToEat * mp.maxEatFraction)) :=
    le_min (by exact_mod_cast h3) hmaxkg
  have hkgp : min ((b.pasto : ℚ)) (mp.kgPerSecondEat * max 0 (star.timeToEat * mp.maxEatFraction)) ≤ (b.pasto : ℚ) :=
    min_le_left _ _
  have htr0 : 0 ≤ truncQ (min ((b.pasto : ℚ)) (mp.kgPerSecondEat * max 0 (star.timeToEat * mp.maxEatFraction))) :=
    truncQ_nonneg hkg0
  have htrp : truncQ (min ((b.pasto : ℚ)) (mp.kgPerSecondEat * max 0 (star.timeToEat * mp.maxEatFraction))) ≤ b.pasto := by
    have := le_trans (truncQ_le_self hkg0) hkgp
    exact_mod_cast this
  have hgain : (0 : ℚ) ≤ (pctFor mp b.estadoSalud / 100) * b.energiaMax *
      min ((b.pasto : ℚ)) (mp.kgPerSecondEat * max 0 (star.timeToEat * mp.maxEatFraction)) := by
    have := pctFor_nonneg hpct b.estadoSalud
    positivity
  have hlost : (0 : ℚ) ≤ mp.researchEnergyPerSecond *
      max 0 (star.timeToResearch - max 0 (star.timeToEat * mp.maxEatFraction)) :=
    mul_nonneg hr hres
  unfold stayStep BurroInv
  simp only [pymin_eq, pymax_eq]
  refine ⟨?_, ?_, ?_, ?_, h5⟩
  · exact le_max_left _ _
  · refine max_le hm ?_
    have : min b.energiaMax (b.energia + (pctFor mp b.estadoSalud / 100) * b.energiaMax *
        min ((b.pasto : ℚ)) (mp.kgPerSecondEat * max 0 (star.timeToEat * mp.maxEatFraction))) ≤
        b.energiaMax := min_le_left _ _
    linarith
  · omega
  · omega

theorem processArrival_inv {g : Graph} {mp : MissionParams} {sid : ℕ} {b : Burro}
    (hmp : ParamsOK mp) (hb : BurroInv b) : BurroInv (processArrival g mp sid b) := by
  unfold processArrival
  cases hg : g.getStar sid with
  | none => exact hb
  | some star =>
    by_cases hh : star.hypergiant
    · simp only [hh, if_true]
      exact stayStep_inv hmp (hypergiantBonus_inv hb)
    · simp only [hh, if_false]
      exact stayStep_inv hmp hb

theorem applyOp_inv {g : Graph} {mp : MissionParams} {b : Burro} {op : SimOp}
    (hmp : ParamsOK mp) (hc : 0 ≤ b.consumoEnergia)
    (hop : ∀ d, op = SimOp.tick d → 0 ≤ d) (hb : BurroInv b) :
    BurroInv (applyOp g mp b op) := by
  obtain ⟨h1, h2, h3, h4, h5⟩ := hb
  cases op with
  | arrival sid => exact processArrival_inv hmp ⟨h1, h2, h3, h4, h5⟩
  | move =>
    unfold applyOp moverseAEstrella BurroInv
    simp only [pymax_eq]
    refine ⟨le_max_left _ _, ?_, h3, h4, h5⟩
    refine max_le (le_trans h1 h2) ?_
    linarith
  | tick d =>
    unfold applyOp lifeTick BurroInv
    simp only [pymax_eq]
    exact ⟨h1, h2, h3, h4, le_max_left _ _⟩

theorem applyOp_consumo {g : Graph} {mp : MissionParams} {b : Burro} (op : SimOp) :
    (applyOp g mp b op).consumoEnergia = b.consumoEnergia := by
  cases op with
  | arrival sid =>
    simp only [applyOp, processArrival]
    cases hg : g.getStar sid with
    | none => rfl
    | some star =>
      by_cases hh : star.hypergiant <;>
        simp [hh, stayStep, hypergiantBonus]
  | move => rfl
  | tick d => rfl

/-- C6: starting from a state with energy in [0, max], stock in [0, max] and
a nonnegative life budget, any finite sequence of simulator operations
(arrivals, moves, transit life decrements with nonnegative distances, under
nonnegative mission parameters) keeps energy and stock within their bounds
and never makes energy, stock or life budget negative. -/
theorem c6_resource_invariants (g : Graph) (mp : MissionParams) (ops : List SimOp)
    (b : Burro) (hmp : ParamsOK mp) (hc : 0 ≤ b.consumoEnergia)
    (hops : ∀ d, SimOp.tick d ∈ ops → 0 ≤ d) (hb : BurroInv b) :
    BurroInv (ops.foldl (applyOp g mp) b) := by
  induction ops generalizing b with
  | nil => exact hb
  | cons op t ih =>
    simp only [List.foldl_cons]
    refine ih (applyOp g mp b op) ?_ ?_ ?_
    · rw [applyOp_consumo]
      exact hc
    · intro d hd
      exact hops d (List.mem_cons_of_mem _ hd)
    · refine applyOp_inv hmp hc ?_ hb
      intro d hd
      exact hops d (by rw [hd]; exact List.mem_cons_self _ _)

theorem c6_resource_invariants_witness :
    ParamsOK mpDefault ∧ 0 ≤ bEat.consumoEnergia ∧ BurroInv bEat ∧
    BurroInv ([SimOp.arrival 1, SimOp.move, SimOp.tick 3].foldl (applyOp gEat mpDefault) bEat) := by
  have hops : ∀ d, SimOp.tick d ∈ [SimOp.arrival 1, SimOp.move, SimOp.tick 3] → 0 ≤ d := by
    intro d hd
    simp only [List.mem_cons, List.not_mem_nil, or_false] at hd
    rcases hd with h | h | h
    · exact SimOp.noConfusion h
    · exact SimOp.noConfusion h
    · injection h with h2
      rw [h2]
      norm_num
  have hmp : ParamsOK mpDefault :=
    ⟨by with_unfolding_all decide, by with_unfolding_all decide, by with_unfolding_all decide⟩
  have hb : BurroInv bEat :=
    ⟨by with_unfolding_all decide, by with_unfolding_all decide, by with_unfolding_all decide,
     by with_unfolding_all decide, by with_unfolding_all decide⟩
  exact ⟨hmp, by with_unfolding_all decide, hb,
    c6_resource_invariants gEat mpDefault _ bEat hmp (by with_unfolding_all decide) hops hb⟩

/-- C7 counterexample: with the edge (1,2) of the current constellation
blocked in the registry, calling advance on the route [1, 2] from star 1
still starts the transit along (1, 2) (with the usual duration formula) and
reports no error: the advance code never consults the blocking registry. -/
theorem c7_counterexample :
    edgeBlocked blAdv 0 1 2 = true ∧
    advanceToNextEdge gAdv mpDefault tsAdv =
      some { tsAdv with
        currentTravel := some (1, 2),
        currentTravelDuration := 1 / 5,
        currentTravelTime := 0 } := by
  refine ⟨by with_unfolding_all decide, by with_unfolding_all decide⟩

/-- C7 amended: `advance()` does not consult the blocking registry. When the
traveler sits at the head of the planned route, the transit along the next
route edge is started unconditionally, with distance looked up as
`connections.get(b, 0.0)` (an edge absent from the graph yields distance 0,
hence the minimum duration 0.2 s); only a route head missing from the graph
aborts with an exception (modelled as `none`). -/
theorem c7_amended_advance_ignores_blocking (g : Graph) (mp : MissionParams)
    (ts : TravelState) (a b : ℕ) (rest : List ℕ)
    (hcur : ts.currentStarId = some a) (hpath : ts.plannedPath = a :: b :: rest) :
    (∀ st, g.getStar a = some st →
      advanceToNextEdge g mp ts =
        some { ts with
          currentTravel := some (a, b),
          currentTravelDuration :=
            max (1 / 5) (((slookup st.connections b).getD 0) /
              max (1 / 1000) mp.travelSpeedUnits),
          currentTravelTime := 0 }) ∧
    (g.getStar a = none → advanceToNextEdge g mp ts = none) := by
  have hidx : (a :: b :: rest).indexOf a = 0 := by
    simp [List.indexOf_cons_self]
  have hmem : a ∈ a :: b :: rest := List.mem_cons_self _ _
  constructor
  · intro st hst
    unfold advanceToNextEdge
    rw [hcur, hpath]
    simp only [hmem, if_true, hidx]
    norm_num
    rw [if_neg (by omega)]
    unfold startTravel
    rw [hst]
    cases hl : slookup st.connections b <;>
      simp [hl, pymax_eq, hpath, hcur]
  · intro hst
    unfold advanceToNextEdge
    rw [hcur, hpath]
    simp only [hmem, if_true, hidx]
    norm_num
    rw [if_neg (by omega)]
    unfold startTravel
    rw [hst]

theorem c7_amended_advance_ignores_blocking_witness :
    tsAdv.currentStarId = some 1 ∧ tsAdv.plannedPath = [1, 2] ∧
    Graph.getStar gAdv 1 = some (mkStar 1 1 1 false [(2, 5)]) ∧
    advanceToNextEdge gAdv mpDefault tsAdv =
      some { tsAdv with
        currentTravel := some (1, 2),
        currentTravelDuration :=
          max (1 / 5) (((slookup (mkStar 1 1 1 false [(2, 5)]).connections 2).getD 0) /
            max (1 / 1000) mpDefault.travelSpeedUnits),
        currentTravelTime := 0 } :=
  ⟨by decide, by decide, by decide,
   (c7_amended_advance_ignores_blocking gAdv mpDefault tsAdv 1 2 [] (by decide) (by decide)).1
     _ (by decide)⟩

theorem indexOf_last_of_not_before {l : List ℕ} {cur : ℕ}
    (hlast : l.getLast? = some cur) (hnd : cur ∉ l.dropLast) :
    l.indexOf cur = l.length - 1 := by
  induction l with
  | nil => simp at hlast
  | cons x t ih =>
    cases t with
    | nil =>
      simp at hlast
      simp [hlast, List.indexOf_cons_self]
    | cons y u =>
      have hlast2 : (y :: u).getLast? = some cur := by
        rw [List.getLast?_cons_cons] at hlast
        exact hlast
      have hd : cur ∉ (y :: u).dropLast ∧ cur ≠ x := by
        rw [List.dropLast_cons_of_ne_nil (by simp)] at hnd
        simp only [List.mem_cons, not_or] at hnd
        exact ⟨hnd.2, hnd.1⟩
      have hne : (x == cur) = false := by
        simp [Ne.symm hd.2]
      have := ih hlast2 hd.1
      rw [List.indexOf_cons]
      simp only [hne, cond_false]
      rw [this]
      simp

/-- C10 amended: when the advance trigger fires while the current star does
not occur in the (length ≥ 2) route, the transit starts along the route's
first edge; when the current star occurs in the route only at its last
position, no transit is started. -/
theorem c10_amended_advance_position (g : Graph) (mp : MissionParams)
    (ts : TravelState) (cur : ℕ) (hcur : ts.currentStarId = some cur) :
    (∀ p0 p1 rest st, ts.plannedPath = p0 :: p1 :: rest →
      cur ∉ ts.plannedPath → g.getStar p0 = some st →
      advanceToNextEdge g mp ts =
        some { ts with
          currentTravel := some (p0, p1),
          currentTravelDuration :=
            max (1 / 5) (((slookup st.connections p1).getD 0) /
              max (1 / 1000) mp.travelSpeedUnits),
          currentTravelTime := 0 }) ∧
    (ts.plannedPath ≠ [] → ts.plannedPath.getLast? = some cur →
      cur ∉ ts.plannedPath.dropLast →
      advanceToNextEdge g mp ts = some { ts with currentTravel := none }) := by
  constructor
  · intro p0 p1 rest st hpath hnotin hst
    rw [hpath] at hnotin
    have hne : p0 ≠ cur := fun h => hnotin (by rw [h]; exact List.mem_cons_self _ _)
    unfold advanceToNextEdge
    rw [hcur, hpath]
    dsimp only
    rw [if_neg hnotin]
    have hcond : ¬((-1 : ℤ) = -1 ∧ p0 = cur) := fun h => hne h.2
    rw [if_neg hcond]
    rw [if_pos (by norm_num)]
    unfold startTravel
    rw [hst]
    cases hl : slookup st.connections p1 <;>
      simp [hl, pymax_eq, hpath, hcur]
  · intro hne hlast hnd
    obtain ⟨p0, rest, hpath⟩ : ∃ p0 rest, ts.plannedPath = p0 :: rest := by
      cases h : ts.plannedPath with
      | nil => exact absurd h hne
      | cons p0 rest => exact ⟨p0, rest, rfl⟩
    rw [hpath] at hlast hnd
    have hmem : cur ∈ p0 :: rest := by
      obtain ⟨hh, he⟩ := List.mem_getLast?_eq_getLast
        (show cur ∈ (p0 :: rest).getLast? from Option.mem_def.mpr hlast)
      rw [he]
      exact List.getLast_mem hh
    have hidx2 : (p0 :: rest).indexOf cur = (p0 :: rest).length - 1 :=
      indexOf_last_of_not_before hlast hnd
    unfold advanceToNextEdge
    rw [hcur, hpath]
    dsimp only
    rw [if_pos hmem, hidx2]
    have hc1 : ¬(((((p0 :: rest).length - 1 : ℕ)) : ℤ) = -1 ∧ p0 = cur) := by
      intro h
      have := h.1
      omega
    rw [if_neg hc1]
    rw [if_neg (by omega)]
    rw [if_pos (by omega)]

theorem c10_amended_advance_position_witness :
    tsOff.currentStarId = some 7 ∧ tsOff.plannedPath = [1, 2] ∧ 7 ∉ tsOff.plannedPath ∧
    advanceToNextEdge gAdv mpDefault tsOff =
      some { tsOff with
        currentTravel := some (1, 2),
        currentTravelDuration :=
          max (1 / 5) (((slookup (mkStar 1 1 1 false [(2, 5)]).connections 2).getD 0) /
            max (1 / 1000) mpDefault.travelSpeedUnits),
        currentTravelTime := 0 } :=
  ⟨by with_unfolding_all decide, by with_unfolding_all decide, by with_unfolding_all decide,
   (c10_amended_advance_position gAdv mpDefault tsOff 7 (by with_unfolding_all decide)).1
     1 2 [] (mkStar 1 1 1 false [(2, 5)]) (by with_unfolding_all decide)
     (by with_unfolding_all decide) (by with_unfolding_all decide)⟩

/-- C10 counterexample: route [1, 2, 1] whose last element equals the
traveler's current star 1; advance still starts the transit (1, 2) because
the source finds the first occurrence of the current star. -/
theorem c10_counterexample :
    tsLoop.plannedPath.getLast? = some 1 ∧ tsLoop.currentStarId = some 1 ∧
    advanceToNextEdge gAdv mpDefault tsLoop =
      some { tsLoop with
        currentTravel := some (1, 2),
        currentTravelDuration := 1 / 5,
        currentTravelTime := 0 } := by
  refine ⟨by with_unfolding_all decide, by with_unfolding_all decide,
    by with_unfolding_all decide⟩

end GB
